import Mathlib

/-!
Shallow embedding of the copy-redis dispatch pipeline.

The Rust sources embedded here:
* `src/command.rs`   — `CommandConverter::handle_aof` (mutation → canonical request)
* `src/sharding.rs`  — `ShardedEventHandler` (consistent-hash routing, broadcast)
* `src/cluster.rs`   — `ClusterEventHandlerImpl` (single-channel cluster dispatch)
* `src/worker.rs`    — worker loop receive / flush conditions
* `src/main.rs`      — `parse_args` batch-size normalisation, checkpoint save / load

Byte strings are `List Nat` (each element a byte value); 64-bit machine
arithmetic is `Nat` arithmetic reduced modulo `2 ^ 64`.
-/

namespace CopyRedis

/-- Byte strings (`&[u8]` / `Vec<u8>` in the source). -/
abbrev B := List Nat

/-- ASCII bytes of a Lean string; all literals the program builds are ASCII. -/
def asciiBytes (s : String) : B := s.data.map Char.toNat

/-! ### 64-bit arithmetic and `murmur_hash64a` (murmurhash64 crate) -/

/-- Truncation to 64 bits, the wrap-around of `u64` operations. -/
def mask64 (n : Nat) : Nat := n % 2 ^ 64

/-- `u64::wrapping_mul`. -/
def mul64 (a b : Nat) : Nat := mask64 (a * b)

/-- Multiplication constant `m` of MurmurHash64A. -/
def murmurM : Nat := 0xc6a4a7935bd1e995

/-- Little-endian combination of up to eight bytes into a `u64`. -/
def leBytes (bs : B) : Nat := bs.foldr (fun b acc => b + acc * 2 ^ 8) 0

/-- One eight-byte block round of `murmur_hash64a`. -/
def murmurBlock (h k : Nat) : Nat :=
  let k := mul64 k murmurM
  let k := k ^^^ (k >>> 47)
  let k := mul64 k murmurM
  mul64 (h ^^^ k) murmurM

/-- The trailing `len & 7` bytes: XOR their little-endian value into `h`,
then multiply by `m` (the cascade of shifted XORs in the source equals the
XOR of the little-endian combination). -/
def murmurTail (h : Nat) (tail : B) : Nat :=
  match tail with
  | [] => h
  | bs => mul64 (h ^^^ leBytes bs) murmurM

/-- The main loop of `murmur_hash64a`: full eight-byte chunks, then the tail. -/
def murmurLoop (h : Nat) : B → Nat
  | b0 :: b1 :: b2 :: b3 :: b4 :: b5 :: b6 :: b7 :: rest =>
      murmurLoop (murmurBlock h (leBytes [b0, b1, b2, b3, b4, b5, b6, b7])) rest
  | tail => murmurTail h tail

/-- `murmur_hash64a(key, seed)` from the murmurhash64 crate. -/
def murmur_hash64a (key : B) (seed : Nat) : Nat :=
  let h := seed ^^^ mul64 key.length murmurM
  let h := murmurLoop h key
  let h := h ^^^ (h >>> 47)
  let h := mul64 h murmurM
  h ^^^ (h >>> 47)

/-- `const SEED: u64 = 0x1234ABCD` (`src/sharding.rs`). -/
def SEED : Nat := 0x1234ABCD

/-! ### Decimal rendering and parsing

`format!("{}", n)` on integers and `str::parse::<i64>` from the checkpoint
code, and the decimal encoding `redis-rs` applies to numeric arguments. -/

/-- The ASCII digit character for `d < 10`. -/
def digitChar (d : Nat) : Char := Char.ofNat (48 + d)

/-- Little-endian decimal digits of `n`, fuel-driven so that the definition is
structural (the fuel is always taken `≥ n`). -/
def decRevAux : Nat → Nat → List Char
  | 0, _ => []
  | fuel + 1, n => if n = 0 then [] else digitChar (n % 10) :: decRevAux fuel (n / 10)

/-- Decimal rendering of a natural number, as Rust's `Display` writes it. -/
def natChars (n : Nat) : List Char :=
  if n = 0 then ['0'] else (decRevAux n n).reverse

/-- Decimal rendering of a signed integer, as Rust's `Display` writes it. -/
def intChars (i : Int) : List Char :=
  if i < 0 then '-' :: natChars i.natAbs else natChars i.natAbs

/-- Decimal ASCII bytes of a signed integer (numeric command argument). -/
def intBytes (i : Int) : B := (intChars i).map Char.toNat

/-- Digit-by-digit accumulation used by integer parsing; `none` on the first
non-digit character. -/
def parseDigitsAux : List Char → Nat → Option Nat
  | [], acc => some acc
  | c :: cs, acc =>
      if 48 ≤ c.toNat ∧ c.toNat ≤ 57 then parseDigitsAux cs (acc * 10 + (c.toNat - 48))
      else none

/-- Parse a non-empty all-digit string to a natural number. -/
def parseDigits (s : List Char) : Option Nat :=
  match s with
  | [] => none
  | cs => parseDigitsAux cs 0

/-- `str::parse::<i64>`: optional sign, at least one digit, result must fit
in `i64`. -/
def parseI64 (s : List Char) : Option Int :=
  match s with
  | [] => none
  | c :: rest =>
      if c = '+' then (parseDigits rest).bind fun n =>
        if n ≤ 2 ^ 63 - 1 then some (n : Int) else none
      else if c = '-' then (parseDigits rest).bind fun n =>
        if n ≤ 2 ^ 63 then some (-(n : Int)) else none
      else (parseDigits (c :: rest)).bind fun n =>
        if n ≤ 2 ^ 63 - 1 then some (n : Int) else none

/-! ### Canonical requests and the upstream `Command` data model -/

/-- A canonical request: the verb `redis::cmd(..)` was created with, plus the
argument byte strings appended by `.arg(..)` calls, in order. -/
structure Req where
  verb : String
  args : List B
deriving DecidableEq

/-- Key/value pair of `MSET` / `MSETNX` records. -/
structure KVPair where
  key : B
  value : B
deriving DecidableEq

/-- `redis_event::cmd::strings::ExpireType`. -/
inductive RExpireType where
  | EX
  | PX
deriving DecidableEq

/-- `redis_event::cmd::strings::ExistType`. -/
inductive RExistType where
  | NX
  | XX
deriving DecidableEq

/-- `redis_event::cmd::strings::Op` (the `BITOP` operator). -/
inductive ROp where
  | AND
  | OR
  | XOR
  | NOT
deriving DecidableEq

/-- `redis_event::cmd::lists::POSITION`. -/
inductive RPosition where
  | BEFORE
  | AFTER
deriving DecidableEq

/-- `redis_event::cmd::keys::ORDER`. -/
inductive ROrder where
  | ASC
  | DESC
deriving DecidableEq

/-- `redis_event::cmd::sorted_sets::AGGREGATE`. -/
inductive RAggregate where
  | SUM
  | MIN
  | MAX
deriving DecidableEq

/-- `redis_event::cmd::strings::Operation` (a `BITFIELD` sub-statement). -/
inductive ROperation where
  | GET (t o : B)
  | INCRBY (t o increment : B)
  | SET (t o value : B)
deriving DecidableEq

/-- `redis_event::cmd::strings::Overflow`. -/
inductive ROverflow where
  | WRAP
  | SAT
  | FAIL
deriving DecidableEq

/-- A hash / stream field-value pair. -/
structure RField where
  name : B
  value : B
deriving DecidableEq

/-- A sorted-set item (score rendered to bytes the way `.arg` encodes it). -/
structure RItem where
  score : B
  member : B
deriving DecidableEq

/-- `XGROUP CREATE` / `SETID` payload. -/
structure XGroupKeyed where
  key : B
  group_name : B
  id : B
deriving DecidableEq

/-- `XGROUP DESTROY` payload. -/
structure XGroupDestroy where
  key : B
  group_name : B
deriving DecidableEq

/-- `XGROUP DELCONSUMER` payload. -/
structure XGroupDelConsumer where
  key : B
  group_name : B
  consumer_name : B
deriving DecidableEq

/-- The `XGROUP` record: any subset of the four subcommands. -/
structure XGroupRecord where
  create : Option XGroupKeyed
  set_id : Option XGroupKeyed
  destroy : Option XGroupDestroy
  del_consumer : Option XGroupDelConsumer
deriving DecidableEq

/-- `redis_event::cmd::Command`: every mutation record the upstream decoder
recognises, with the fields `CommandConverter::handle_aof` reads.  Fields the
source passes straight to `.arg(..)` are byte strings; `SELECT.db` is numeric
because the source formats it (`select.db.to_string()` / numeric `.arg`). -/
inductive Command where
  | APPEND (key value : B)
  | BITFIELD (key : B) (statements : Option (List ROperation))
      (overflows : Option (List ROverflow))
  | BITOP (operation : ROp) (dest_key : B) (keys : List B)
  | BRPOPLPUSH (source destination timeout : B)
  | DECR (key : B)
  | DECRBY (key decrement : B)
  | DEL (keys : List B)
  | EVAL (script num_keys : B) (keys args : List B)
  | EVALSHA (sha1 num_keys : B) (keys args : List B)
  | EXPIRE (key seconds : B)
  | EXPIREAT (key timestamp : B)
  | EXEC
  | FLUSHALL (async : Option Unit)
  | FLUSHDB (async : Option Unit)
  | GETSET (key value : B)
  | HDEL (key : B) (fields : List B)
  | HINCRBY (key field increment : B)
  | HMSET (key : B) (fields : List RField)
  | HSET (key : B) (fields : List RField)
  | HSETNX (key field value : B)
  | INCR (key : B)
  | INCRBY (key increment : B)
  | LINSERT (key : B) (position : RPosition) (pivot element : B)
  | LPOP (key : B)
  | LPUSH (key : B) (elements : List B)
  | LPUSHX (key : B) (elements : List B)
  | LREM (key count element : B)
  | LSET (key index element : B)
  | LTRIM (key start stop : B)
  | MOVE (key db : B)
  | MSET (key_values : List KVPair)
  | MSETNX (key_values : List KVPair)
  | MULTI
  | PERSIST (key : B)
  | PEXPIRE (key milliseconds : B)
  | PEXPIREAT (key mill_timestamp : B)
  | PFADD (key : B) (elements : List B)
  | PFCOUNT (keys : List B)
  | PFMERGE (dest_key : B) (source_keys : List B)
  | PSETEX (key milliseconds value : B)
  | PUBLISH (channel message : B)
  | RENAME (key new_key : B)
  | RENAMENX (key new_key : B)
  | RESTORE (key ttl value : B) (replace abs_ttl : Option Unit)
      (idle_time freq : Option B)
  | RPOP (key : B)
  | RPOPLPUSH (source destination : B)
  | RPUSH (key : B) (elements : List B)
  | RPUSHX (key : B) (elements : List B)
  | SADD (key : B) (members : List B)
  | SCRIPTFLUSH
  | SCRIPTLOAD (script : B)
  | SDIFFSTORE (destination : B) (keys : List B)
  | SET (key value : B) (expire : Option (RExpireType × B))
      (exist_type : Option RExistType) (keep_ttl : Option Unit)
  | SETBIT (key offset value : B)
  | SETEX (key seconds value : B)
  | SETNX (key value : B)
  | SELECT (db : Int)
  | SETRANGE (key offset value : B)
  | SINTERSTORE (destination : B) (keys : List B)
  | SMOVE (source destination member : B)
  | SORT (key : B) (by_pattern : Option B) (limit : Option (B × B))
      (get_patterns : Option (List B)) (order : Option ROrder)
      (alpha : Option Unit) (destination : Option B)
  | SREM (key : B) (members : List B)
  | SUNIONSTORE (destination : B) (keys : List B)
  | SWAPDB (index1 index2 : B)
  | UNLINK (keys : List B)
  | ZADD (key : B) (exist_type : Option RExistType) (ch incr : Option Unit)
      (items : List RItem)
  | ZINCRBY (key increment member : B)
  | ZINTERSTORE (destination num_keys : B) (keys : List B)
      (weights : Option (List B)) (aggregate : Option RAggregate)
  | ZPOPMAX (key : B) (count : Option B)
  | ZPOPMIN (key : B) (count : Option B)
  | ZREM (key : B) (members : List B)
  | ZREMRANGEBYLEX (key min max : B)
  | ZREMRANGEBYRANK (key start stop : B)
  | ZREMRANGEBYSCORE (key min max : B)
  | ZUNIONSTORE (destination num_keys : B) (keys : List B)
      (weights : Option (List B)) (aggregate : Option RAggregate)
  | Other (name : String) (args : List B)
  | XACK (key group : B) (ids : List B)
  | XADD (key id : B) (fields : List RField)
  | XCLAIM (key group consumer min_idle_time : B) (ids : List B)
      (idle time retry_count : Option B) (force just_id : Option Unit)
  | XDEL (key : B) (ids : List B)
  | XGROUP (x : XGroupRecord)
  | XTRIM (key : B) (approximation : Bool) (count : B)

/-! ### `CommandConverter::handle_aof` (`src/command.rs`) -/

/-- Bytes of a literal token such as `"ASYNC"` or `"GET"`. -/
def lit (s : String) : B := asciiBytes s

/-- Arguments contributed by one `BITFIELD` sub-statement. -/
def bitfieldStatementArgs : ROperation → List B
  | .GET t o => [lit "GET", t, o]
  | .INCRBY t o increment => [lit "INCRBY", t, o, increment]
  | .SET t o value => [lit "SET", t, o, value]

/-- Arguments contributed by one `BITFIELD` overflow clause. -/
def bitfieldOverflowArgs : ROverflow → List B
  | .WRAP => [lit "OVERFLOW", lit "WRAP"]
  | .SAT => [lit "OVERFLOW", lit "SAT"]
  | .FAIL => [lit "OVERFLOW", lit "FAIL"]

/-- The literal token of the `BITOP` operator. -/
def bitopToken : ROp → B
  | .AND => lit "AND"
  | .OR => lit "OR"
  | .XOR => lit "XOR"
  | .NOT => lit "NOT"

/-- `NX` / `XX` literal. -/
def existToken : RExistType → B
  | .NX => lit "NX"
  | .XX => lit "XX"

/-- `SUM` / `MIN` / `MAX` literal. -/
def aggregateToken : RAggregate → B
  | .SUM => lit "SUM"
  | .MIN => lit "MIN"
  | .MAX => lit "MAX"

/-- `WEIGHTS w…` and `AGGREGATE t` clauses of `ZINTERSTORE` / `ZUNIONSTORE`. -/
def zstoreTailArgs (weights : Option (List B)) (aggregate : Option RAggregate) : List B :=
  (weights.elim [] (fun ws => lit "WEIGHTS" :: ws)) ++
    (aggregate.elim [] (fun a => [lit "AGGREGATE", aggregateToken a]))

/-- Arguments appended for the `XGROUP` sub-clauses present in the record
(the source appends all present sub-clauses to one request). -/
def xgroupArgs (x : XGroupRecord) : List B :=
  (x.create.elim [] (fun c => [lit "CREATE", c.key, c.group_name, c.id])) ++
    (x.set_id.elim [] (fun s => [lit "SETID", s.key, s.group_name, s.id])) ++
    (x.destroy.elim [] (fun d => [lit "DESTROY", d.key, d.group_name])) ++
    (x.del_consumer.elim []
      (fun d => [lit "DELCONSUMER", d.key, d.group_name, d.consumer_name]))

/-- The canonical request `CommandConverter::handle_aof` builds for each
mutation record before calling `self.execute(cmd, None)`; every branch of the
source performs exactly one `execute` with this request. -/
def aofReq : Command → Req
  | .APPEND key value => ⟨"APPEND", [key, value]⟩
  | .BITFIELD key statements overflows =>
      ⟨"BITFIELD", key :: ((statements.elim [] (·.flatMap bitfieldStatementArgs)) ++
        (overflows.elim [] (·.flatMap bitfieldOverflowArgs)))⟩
  | .BITOP operation dest_key keys => ⟨"BITOP", bitopToken operation :: dest_key :: keys⟩
  | .BRPOPLPUSH source destination timeout => ⟨"BRPOPLPUSH", [source, destination, timeout]⟩
  | .DECR key => ⟨"DECR", [key]⟩
  | .DECRBY key decrement => ⟨"DECRBY", [key, decrement]⟩
  | .DEL keys => ⟨"DEL", keys⟩
  | .EVAL script num_keys keys args => ⟨"EVAL", script :: num_keys :: (keys ++ args)⟩
  | .EVALSHA sha1 num_keys keys args => ⟨"EVALSHA", sha1 :: num_keys :: (keys ++ args)⟩
  | .EXPIRE key seconds => ⟨"EXPIRE", [key, seconds]⟩
  | .EXPIREAT key timestamp => ⟨"EXPIREAT", [key, timestamp]⟩
  | .EXEC => ⟨"EXEC", []⟩
  | .FLUSHALL async => ⟨"FLUSHALL", async.elim [] (fun _ => [lit "ASYNC"])⟩
  | .FLUSHDB async => ⟨"FLUSHDB", async.elim [] (fun _ => [lit "ASYNC"])⟩
  | .GETSET key value => ⟨"GETSET", [key, value]⟩
  | .HDEL key fields => ⟨"HDEL", key :: fields⟩
  | .HINCRBY key field increment => ⟨"HINCRBY", [key, field, increment]⟩
  | .HMSET key fields => ⟨"HMSET", key :: fields.flatMap (fun f => [f.name, f.value])⟩
  | .HSET key fields => ⟨"HSET", key :: fields.flatMap (fun f => [f.name, f.value])⟩
  | .HSETNX key field value => ⟨"HSETNX", [key, field, value]⟩
  | .INCR key => ⟨"INCR", [key]⟩
  | .INCRBY key increment => ⟨"INCRBY", [key, increment]⟩
  | .LINSERT key position pivot element =>
      ⟨"LINSERT", [key, (match position with
        | .BEFORE => lit "BEFORE"
        | .AFTER => lit "AFTER"), pivot, element]⟩
  | .LPOP key => ⟨"LPOP", [key]⟩
  | .LPUSH key elements => ⟨"LPUSH", key :: elements⟩
  | .LPUSHX key elements => ⟨"LPUSHX", key :: elements⟩
  | .LREM key count element => ⟨"LREM", [key, count, element]⟩
  | .LSET key index element => ⟨"LSET", [key, index, element]⟩
  | .LTRIM key start stop => ⟨"LTRIM", [key, start, stop]⟩
  | .MOVE key db => ⟨"MOVE", [key, db]⟩
  | .MSET key_values => ⟨"MSET", key_values.flatMap (fun kv => [kv.key, kv.value])⟩
  | .MSETNX key_values => ⟨"MSETNX", key_values.flatMap (fun kv => [kv.key, kv.value])⟩
  | .MULTI => ⟨"MULTI", []⟩
  | .PERSIST key => ⟨"PERSIST", [key]⟩
  | .PEXPIRE _key milliseconds => ⟨"PEXPIRE", [milliseconds]⟩
  | .PEXPIREAT _key mill_timestamp => ⟨"PEXPIREAT", [mill_timestamp]⟩
  | .PFADD key elements => ⟨"PFADD", key :: elements⟩
  | .PFCOUNT keys => ⟨"PFCOUNT", keys⟩
  | .PFMERGE dest_key source_keys => ⟨"PFMERGE", dest_key :: source_keys⟩
  | .PSETEX key milliseconds value => ⟨"PSETEX", [key, milliseconds, value]⟩
  | .PUBLISH channel message => ⟨"PUBLISH", [channel, message]⟩
  | .RENAME key new_key => ⟨"RENAME", [key, new_key]⟩
  | .RENAMENX key new_key => ⟨"RENAMENX", [key, new_key]⟩
  | .RESTORE key ttl value replace abs_ttl idle_time freq =>
      ⟨"RESTORE", [key, ttl, value] ++ (replace.elim [] (fun _ => [lit "REPLACE"])) ++
        (abs_ttl.elim [] (fun _ => [lit "ABSTTL"])) ++
        (idle_time.elim [] (fun idle => [lit "IDLETIME", idle])) ++
        (freq.elim [] (fun f => [lit "FREQ", f]))⟩
  | .RPOP key => ⟨"RPOP", [key]⟩
  | .RPOPLPUSH source destination => ⟨"RPOPLPUSH", [source, destination]⟩
  | .RPUSH key elements => ⟨"RPUSH", key :: elements⟩
  | .RPUSHX key elements => ⟨"RPUSHX", key :: elements⟩
  | .SADD key members => ⟨"SADD", key :: members⟩
  | .SCRIPTFLUSH => ⟨"SCRIPT", [lit "FLUSH"]⟩
  | .SCRIPTLOAD script => ⟨"SCRIPT", [lit "LOAD", script]⟩
  | .SDIFFSTORE destination keys => ⟨"SDIFFSTORE", destination :: keys⟩
  | .SET key value expire exist_type keep_ttl =>
      ⟨"SET", [key, value] ++
        (expire.elim [] (fun e => [(match e.1 with
          | .EX => lit "EX"
          | .PX => lit "PX"), e.2])) ++
        (exist_type.elim [] (fun e => [existToken e])) ++
        (keep_ttl.elim [] (fun _ => [lit "KEEPTTL"]))⟩
  | .SETBIT key offset value => ⟨"SETBIT", [key, offset, value]⟩
  | .SETEX key seconds value => ⟨"SETEX", [key, seconds, value]⟩
  | .SETNX key value => ⟨"SETNX", [key, value]⟩
  | .SELECT db => ⟨"SELECT", [intBytes db]⟩
  | .SETRANGE key offset value => ⟨"SETRANGE", [key, offset, value]⟩
  | .SINTERSTORE destination keys => ⟨"SINTERSTORE", destination :: keys⟩
  | .SMOVE source destination member => ⟨"SMOVE", [source, destination, member]⟩
  | .SORT key by_pattern limit get_patterns order alpha destination =>
      ⟨"SORT", key :: ((by_pattern.elim [] (fun p => [lit "BY", p])) ++
        (limit.elim [] (fun l => [lit "LIMIT", l.1, l.2])) ++
        (get_patterns.elim [] (·.flatMap (fun p => [lit "GET", p]))) ++
        (order.elim [] (fun o => [(match o with
          | .ASC => lit "ASC"
          | .DESC => lit "DESC")])) ++
        (alpha.elim [] (fun _ => [lit "ALPHA"])) ++
        (destination.elim [] (fun d => [lit "STORE", d])))⟩
  | .SREM key members => ⟨"SREM", key :: members⟩
  | .SUNIONSTORE destination keys => ⟨"SUNIONSTORE", destination :: keys⟩
  | .SWAPDB index1 index2 => ⟨"SWAPDB", [index1, index2]⟩
  | .UNLINK keys => ⟨"UNLINK", keys⟩
  | .ZADD key exist_type ch incr items =>
      ⟨"ZADD", key :: ((exist_type.elim [] (fun e => [existToken e])) ++
        (ch.elim [] (fun _ => [lit "CH"])) ++
        (incr.elim [] (fun _ => [lit "INCR"])) ++
        items.flatMap (fun item => [item.score, item.member]))⟩
  | .ZINCRBY key increment member => ⟨"ZINCRBY", [key, increment, member]⟩
  | .ZINTERSTORE destination num_keys keys weights aggregate =>
      ⟨"ZINTERSTORE", destination :: num_keys :: (keys ++ zstoreTailArgs weights aggregate)⟩
  | .ZPOPMAX key count => ⟨"ZPOPMAX", key :: count.elim [] (fun c => [c])⟩
  | .ZPOPMIN key count => ⟨"ZPOPMIN", key :: count.elim [] (fun c => [c])⟩
  | .ZREM key members => ⟨"ZREM", key :: members⟩
  | .ZREMRANGEBYLEX key min max => ⟨"ZREMRANGEBYLEX", [key, min, max]⟩
  | .ZREMRANGEBYRANK key start stop => ⟨"ZREMRANGEBYRANK", [key, start, stop]⟩
  | .ZREMRANGEBYSCORE key min max => ⟨"ZREMRANGEBYSCORE", [key, min, max]⟩
  | .ZUNIONSTORE destination num_keys keys weights aggregate =>
      ⟨"ZUNIONSTORE", destination :: destination :: num_keys ::
        (keys ++ zstoreTailArgs weights aggregate)⟩
  | .Other name args => ⟨name, args⟩
  | .XACK key group ids => ⟨"XACK", key :: group :: ids⟩
  | .XADD key id fields => ⟨"XADD", key :: id :: fields.flatMap (fun f => [f.name, f.value])⟩
  | .XCLAIM key group consumer min_idle_time ids idle time retry_count force just_id =>
      ⟨"XCLAIM", key :: group :: consumer :: min_idle_time :: (ids ++
        (idle.elim [] (fun v => [lit "IDLE", v])) ++
        (time.elim [] (fun v => [lit "TIME", v])) ++
        (retry_count.elim [] (fun v => [lit "RETRYCOUNT", v])) ++
        (force.elim [] (fun _ => [lit "FORCE"])) ++
        (just_id.elim [] (fun _ => [lit "JUSTID"])))⟩
  | .XDEL key ids => ⟨"XDEL", key :: ids⟩
  | .XGROUP x => ⟨"XGROUP", xgroupArgs x⟩
  | .XTRIM key approximation count =>
      ⟨"XTRIM", key :: lit "MAXLEN" :: ((if approximation then [lit "~"] else []) ++ [count])⟩

/-- The trait default `handle_aof` performs exactly one
`self.execute(cmd, None)` per mutation record. -/
def converterHandleAof {α : Type} (exec : Req → Option B → α) (c : Command) : α :=
  exec (aofReq c) none

/-! ### Sorted maps (`BTreeMap`) and the sharded dispatcher (`src/sharding.rs`) -/

/-- Insertion into a `BTreeMap<u64, String>` represented as a key-sorted
association list; an existing key has its value replaced. -/
def btInsert (k : Nat) (v : String) : List (Nat × String) → List (Nat × String)
  | [] => [(k, v)]
  | (k', v') :: rest =>
      if k < k' then (k, v) :: (k', v') :: rest
      else if k = k' then (k, v) :: rest
      else (k', v') :: btInsert k v rest

/-- Byte-wise lexicographic strict order, the `Ord` of Rust `String` keys
(all addresses are ASCII). -/
def bytesLt : B → B → Bool
  | [], [] => false
  | [], _ :: _ => true
  | _ :: _, [] => false
  | a :: as, b :: bs => if a < b then true else if b < a then false else bytesLt as bs

/-- Strict order on the ASCII bytes of two strings. -/
def strLt (a b : String) : Bool := bytesLt (asciiBytes a) (asciiBytes b)

/-- Insertion of a key into a `BTreeMap<String, Sender>` represented by its
sorted key list (each channel is identified by its address). -/
def sInsert (a : String) : List String → List String
  | [] => [a]
  | b :: rest =>
      if strLt a b then a :: b :: rest
      else if strLt b a then b :: sInsert a rest
      else a :: rest

/-- `format!("{}-{}:{}", i, host, port)`: the derived shard address.  The
model takes each target already in `host:port` form (the URI scheme and
credentials being stripped by the connection-info parse). -/
def derivedAddr (i : Nat) (hostport : String) : String :=
  toString i ++ "-" ++ hostport

/-- The virtual-node name `format!("SHARD-{}-NODE-{}", i, n)`. -/
def vnodeName (i n : Nat) : String :=
  "SHARD-" ++ toString i ++ "-NODE-" ++ toString n

/-- Hash of virtual node `n` of shard `i`. -/
def vnodeHash (i n : Nat) : Nat := murmur_hash64a (asciiBytes (vnodeName i n)) SEED

/-- The 160 routing entries inserted for shard `i`. -/
def shardEntries (i : Nat) (hostport : String) : List (Nat × String) :=
  (List.range 160).map (fun n => (vnodeHash i n, derivedAddr i hostport))

/-- All routing entries, in insertion order (shard 0 first, each shard's
`n = 0..160` in order). -/
def allEntries (shards : List String) : List (Nat × String) :=
  shards.enum.flatMap (fun p => shardEntries p.1 p.2)

/-- The routing table `nodes` built by `new_sharded`. -/
def buildNodes (shards : List String) : List (Nat × String) :=
  (allEntries shards).foldl (fun acc p => btInsert p.1 p.2 acc) []

/-- The sorted key list of the `senders` map built by `new_sharded`. -/
def sendersList (shards : List String) : List String :=
  shards.enum.foldl (fun acc p => sInsert (derivedAddr p.1 p.2) acc) []

/-- `self.nodes.range(hash..).next()`: on a key-sorted list, the first entry
whose key is `≥ h`. -/
def lookupGE (h : Nat) : List (Nat × String) → Option (Nat × String)
  | [] => none
  | (k, v) :: rest => if h ≤ k then some (k, v) else lookupGE h rest

/-- `ShardedEventHandler::get_shard`. -/
def get_shard (nodes : List (Nat × String)) (key : B) : Option String :=
  (lookupGE (murmur_hash64a key SEED) nodes).map Prod.snd

/-- One observable action of the sharded dispatcher: a message enqueued on a
shard's channel, or a `panic!` aborting the process. -/
inductive Step where
  | send (addr : String) (req : Req)
  | abort (msg : String)
deriving DecidableEq

/-- Channel selection of `ShardedEventHandler::execute` once the routing key
is known: `get_shard` hit → that node's sender (`unwrap` of the map lookup);
miss → `senders.values().next().unwrap()`, the first sender in address
order. -/
def sendTo (nodes : List (Nat × String)) (senders : List String) (req : Req) (key : B) : Step :=
  match get_shard nodes key with
  | none =>
      match senders.head? with
      | some a => Step.send a req
      | none => Step.abort "called `Option::unwrap()` on a `None` value"
  | some node =>
      if node ∈ senders then Step.send node req
      else Step.abort "called `Option::unwrap()` on a `None` value"

/-- `ShardedEventHandler::execute`: an explicit key override wins; otherwise
the first argument after the verb is the routing key, and its absence is the
`panic!("cmd args is empty")` (every argument the converter builds is an
`Arg::Simple`, so the cursor panic is unreachable). -/
def execStep (nodes : List (Nat × String)) (senders : List String) (req : Req)
    (key : Option B) : Step :=
  match key with
  | some k => sendTo nodes senders req k
  | none =>
      match req.args.head? with
      | none => Step.abort "cmd args is empty"
      | some k => sendTo nodes senders req k

/-- `ShardedEventHandler::broadcast`: the same canonical request enqueued to
every sender, in map (address) order. -/
def broadcastSteps (senders : List String) (req : Req) : List Step :=
  senders.map (fun a => Step.send a req)

/-- The AOF arm of `ShardedEventHandler::handle` (`src/sharding.rs`). -/
def shardedHandleAOF (nodes : List (Nat × String)) (senders : List String) :
    Command → List Step
  | .SELECT db => broadcastSteps senders ⟨"SELECT", [intBytes db]⟩
  | .DEL keys => keys.map (fun key => execStep nodes senders ⟨"DEL", [key]⟩ (some key))
  | .MSET kvs =>
      kvs.map (fun kv => execStep nodes senders ⟨"SET", [kv.key, kv.value]⟩ (some kv.key))
  | .MSETNX kvs =>
      kvs.map (fun kv => execStep nodes senders ⟨"SETNX", [kv.key, kv.value]⟩ (some kv.key))
  | .PFCOUNT keys =>
      keys.map (fun key => execStep nodes senders ⟨"PFCOUNT", [key]⟩ (some key))
  | .UNLINK keys =>
      keys.map (fun key => execStep nodes senders ⟨"UNLINK", [key]⟩ (some key))
  | .SCRIPTFLUSH => broadcastSteps senders ⟨"SCRIPT", [lit "FLUSH"]⟩
  | .SCRIPTLOAD script => broadcastSteps senders ⟨"SCRIPT", [lit "LOAD", script]⟩
  | .SWAPDB index1 index2 => broadcastSteps senders ⟨"SWAPDB", [index1, index2]⟩
  | .FLUSHDB async =>
      broadcastSteps senders
        (match async with
          | none => ⟨"FLUSHDB", []⟩
          | some _ => ⟨"FLUSHDB", [lit "ASYNC"]⟩)
  | .FLUSHALL async =>
      broadcastSteps senders
        (match async with
          | none => ⟨"FLUSHALL", []⟩
          | some _ => ⟨"FLUSHALL", [lit "ASYNC"]⟩)
  | .XGROUP x =>
      (x.create.elim []
        (fun c => [execStep nodes senders
          ⟨"XGROUP", [lit "CREATE", c.key, c.group_name, c.id]⟩ (some c.key)])) ++
      (x.set_id.elim []
        (fun s => [execStep nodes senders
          ⟨"XGROUP", [lit "SETID", s.key, s.group_name, s.id]⟩ (some s.key)])) ++
      (x.destroy.elim []
        (fun d => [execStep nodes senders
          ⟨"XGROUP", [lit "DESTROY", d.key, d.group_name]⟩ (some d.key)])) ++
      (x.del_consumer.elim []
        (fun d => [execStep nodes senders
          ⟨"XGROUP", [lit "DELCONSUMER", d.key, d.group_name, d.consumer_name]⟩
          (some d.key)]))
  | .BITOP _ _ _ => []
  | .EVAL _ _ _ _ => []
  | .EVALSHA _ _ _ _ => []
  | .MULTI => []
  | .EXEC => []
  | .PFMERGE _ _ => []
  | .SDIFFSTORE _ _ => []
  | .SINTERSTORE _ _ => []
  | .SUNIONSTORE _ _ => []
  | .ZUNIONSTORE _ _ _ _ _ => []
  | .ZINTERSTORE _ _ _ _ _ => []
  | .PUBLISH _ _ => []
  | c => [converterHandleAof (execStep nodes senders) c]

/-! ### The cluster dispatcher (`src/cluster.rs`) -/

/-- The AOF arm of `ClusterEventHandlerImpl::handle`: the requests enqueued
to the single cluster worker channel.  Multi-key mutations are expanded
per key; the cross-key command list yields nothing; every other record is
delegated to the converter's `handle_aof`, whose cluster implementation
(an iteration of the `CommandConverter` trait not present under `src/`)
forwards the single canonical request to the channel. -/
def clusterHandleAOF : Command → List Req
  | .DEL keys => keys.map (fun key => ⟨"DEL", [key]⟩)
  | .MSET kvs => kvs.map (fun kv => ⟨"SET", [kv.key, kv.value]⟩)
  | .MSETNX kvs => kvs.map (fun kv => ⟨"SETNX", [kv.key, kv.value]⟩)
  | .PFCOUNT keys => keys.map (fun key => ⟨"PFCOUNT", [key]⟩)
  | .UNLINK keys => keys.map (fun key => ⟨"UNLINK", [key]⟩)
  | .BITOP _ _ _ => []
  | .EVAL _ _ _ _ => []
  | .EVALSHA _ _ _ _ => []
  | .MULTI => []
  | .EXEC => []
  | .PFMERGE _ _ => []
  | .SDIFFSTORE _ _ => []
  | .SINTERSTORE _ _ => []
  | .SUNIONSTORE _ _ => []
  | .ZUNIONSTORE _ _ _ _ _ => []
  | .ZINTERSTORE _ _ _ _ _ => []
  | .PUBLISH _ _ => []
  | c => [aofReq c]

/-- The six administrative broadcast forms of the sharded handler. -/
def isAdminBroadcast : Command → Bool
  | .SELECT _ => true
  | .SCRIPTFLUSH => true
  | .SCRIPTLOAD _ => true
  | .SWAPDB _ _ => true
  | .FLUSHDB _ => true
  | .FLUSHALL _ => true
  | _ => false

/-! ### The worker loop (`src/worker.rs`) and batch-size parsing (`src/main.rs`) -/

/-- A message on a worker channel. `timeout` stands for
`Err(RecvTimeoutError)`, the empty 10 ms receive tick. -/
inductive WMsg where
  | cmd (r : Req)
  | swapDb (db : Int)
  | terminate
  | timeout

/-- Worker-local state: the pipeline under construction, its `count`, the
`shutdown` flag and the db-intent atomic. -/
structure WState where
  pipeline : List Req
  count : Nat
  shutdown : Bool
  dbIntent : Int
deriving DecidableEq

/-- The receive guard `(batch_size < 0) || (count < batch_size)`. -/
def wouldReceive (batchSize : Int) (count : Nat) : Bool :=
  decide (batchSize < 0) || decide ((count : Int) < batchSize)

/-- Effect of one received message on the worker state. -/
def recvEffect (s : WState) (m : WMsg) : WState :=
  match m with
  | .cmd r => { s with pipeline := s.pipeline ++ [r], count := s.count + 1 }
  | .swapDb db => { s with dbIntent := db }
  | .terminate => { s with shutdown := true }
  | .timeout => s

/-- The flush trigger `(elapsed.ge(&interval) || shutdown) && count > 0`. -/
def flushDue (elapsed interval : Nat) (shutdown : Bool) (count : Nat) : Bool :=
  (decide (interval ≤ elapsed) || shutdown) && decide (0 < count)

/-- One iteration of the worker loop: the guarded receive, then the flush
check (`connOk` is whether `pool.get()` succeeded; on failure the batch is
kept).  Returns the next state, whether a receive was attempted, and whether
the pipeline was executed. -/
def loopIter (batchSize : Int) (interval : Nat) (s : WState) (m : WMsg)
    (elapsed : Nat) (connOk : Bool) : WState × Bool × Bool :=
  let received := wouldReceive batchSize s.count
  let s1 := if received then recvEffect s m else s
  if flushDue elapsed interval s1.shutdown s1.count then
    if connOk then ({ s1 with pipeline := [], count := 0 }, received, true)
    else (s1, received, false)
  else (s1, received, false)

/-- `parse_args` normalisation of `-p / --batch-size` (`src/main.rs`): a
successfully parsed value `≤ 0` becomes `-1`. -/
def parsedBatchSize (n : Int) : Int := if n > 0 then n else -1

/-! ### The replication checkpoint (`src/main.rs`) -/

/-- `save_repl_meta` file body: `format!("{},{}", id, offset)`. -/
def saveContent (id : List Char) (offset : Int) : List Char :=
  id ++ ',' :: intChars offset

/-- Rust `str::split(",")`. -/
def splitComma : List Char → List (List Char)
  | [] => [[]]
  | c :: rest =>
      if c = ',' then [] :: splitComma rest
      else
        match splitComma rest with
        | s :: ss => (c :: s) :: ss
        | [] => [[c]]

/-- `load_repl_meta` body: split on `','`, demand exactly two pieces, parse
the second as `i64`; anything else is the malformed-file error. -/
def loadContent (content : List Char) : Option (List Char × Int) :=
  match splitComma content with
  | [id, off] =>
      match parseI64 off with
      | some o => some (id, o)
      | none => none
  | _ => none

/-- `save_repl_meta`: write the rendered checkpoint into the per-source file
(the path is the stable hash of the source address). -/
def saveMeta (hash : String → Nat) (store : Nat → Option (List Char)) (addr : String)
    (id : List Char) (offset : Int) : Nat → Option (List Char) :=
  fun p => if p = hash addr then some (saveContent id offset) else store p

/-- `load_repl_meta`: read the per-source file and parse it. -/
def loadMeta (hash : String → Nat) (store : Nat → Option (List Char)) (addr : String) :
    Option (List Char × Int) :=
  (store (hash addr)).bind loadContent

/-! ### Order lemmas for the string map -/

theorem bytesLt_irrefl (x : B) : bytesLt x x = false := by
  induction x with
  | nil => rfl
  | cons a as ih => simp [bytesLt, ih]

theorem bytesLt_asymm_eq {x y : B} (hxy : bytesLt x y = false) (hyx : bytesLt y x = false) :
    x = y := by
  induction x generalizing y with
  | nil => cases y with
    | nil => rfl
    | cons b bs => simp [bytesLt] at hxy
  | cons a as ih =>
    cases y with
    | nil => simp [bytesLt] at hyx
    | cons b bs =>
      simp only [bytesLt] at hxy hyx
      rcases Nat.lt_trichotomy a b with h | h | h
      · simp [h] at hxy
      · subst h
        simp only [lt_irrefl, if_false] at hxy hyx
        exact congrArg (a :: ·) (ih hxy hyx)
      · simp [h, Nat.not_lt.mpr h.le, Nat.lt_irrefl] at hyx

theorem char_toNat_injective : Function.Injective Char.toNat := by
  intro a b h
  exact Char.ext (UInt32.ext h)

theorem asciiBytes_injective : Function.Injective asciiBytes := by
  intro s t h
  have hd : s.data = t.data := List.map_injective_iff.mpr char_toNat_injective h
  cases s; cases t; exact congrArg String.mk hd

theorem strLt_asymm_eq {a b : String} (hab : strLt a b = false) (hba : strLt b a = false) :
    a = b :=
  asciiBytes_injective (bytesLt_asymm_eq hab hba)

/-! ### Membership lemmas for the two startup maps -/

theorem sInsert_ne_nil (a : String) (l : List String) : sInsert a l ≠ [] := by
  cases l with
  | nil => simp [sInsert]
  | cons b rest =>
    simp only [sInsert]
    split <;> [skip; split] <;> simp

theorem mem_sInsert_self (a : String) (l : List String) : a ∈ sInsert a l := by
  induction l with
  | nil => simp [sInsert]
  | cons b rest ih =>
    simp only [sInsert]
    split
    · exact List.mem_cons_self _ _
    · split
      · exact List.mem_cons_of_mem _ ih
      · exact List.mem_cons_self _ _

theorem mem_sInsert_of_mem {x : String} {l : List String} (a : String) (hx : x ∈ l) :
    x ∈ sInsert a l := by
  induction l with
  | nil => cases hx
  | cons b rest ih =>
    simp only [sInsert]
    split
    · exact List.mem_cons_of_mem _ hx
    · rename_i hab
      split
      · rcases List.mem_cons.mp hx with h | h
        · exact h ▸ List.mem_cons_self _ _
        · exact List.mem_cons_of_mem _ (ih h)
      · rename_i hba
        rcases List.mem_cons.mp hx with h | h
        · have : a = b := strLt_asymm_eq (Bool.of_not_eq_true hab) (Bool.of_not_eq_true hba)
          exact h ▸ this ▸ List.mem_cons_self _ _
        · exact List.mem_cons_of_mem _ h

theorem mem_sInsert_elim {x a : String} {l : List String} (h : x ∈ sInsert a l) :
    x = a ∨ x ∈ l := by
  induction l with
  | nil => simpa [sInsert] using h
  | cons b rest ih =>
    simp only [sInsert] at h
    split at h
    · rcases List.mem_cons.mp h with h | h
      · exact Or.inl h
      · exact Or.inr h
    · split at h
      · rcases List.mem_cons.mp h with h | h
        · exact Or.inr (h ▸ List.mem_cons_self _ _)
        · rcases ih h with h | h
          · exact Or.inl h
          · exact Or.inr (List.mem_cons_of_mem _ h)
      · rcases List.mem_cons.mp h with h | h
        · exact Or.inl h
        · exact Or.inr (List.mem_cons_of_mem _ h)

theorem mem_foldl_sInsert_of_mem_acc {x : String} {acc : List String}
    {f : Nat × String → String} (ps : List (Nat × String)) (hx : x ∈ acc) :
    x ∈ ps.foldl (fun acc q => sInsert (f q) acc) acc := by
  induction ps generalizing acc with
  | nil => simpa using hx
  | cons p rest ih => exact ih (mem_sInsert_of_mem _ hx)

theorem mem_foldl_sInsert_of_mem {q : Nat × String} {acc : List String}
    {f : Nat × String → String} {ps : List (Nat × String)} (hq : q ∈ ps) :
    f q ∈ ps.foldl (fun acc r => sInsert (f r) acc) acc := by
  induction ps generalizing acc with
  | nil => cases hq
  | cons p rest ih =>
    rcases List.mem_cons.mp hq with h | h
    · subst h
      exact mem_foldl_sInsert_of_mem_acc rest (mem_sInsert_self _ _)
    · exact ih h

theorem foldl_sInsert_ne_nil {acc : List String} {f : Nat × String → String}
    (ps : List (Nat × String)) (h : acc ≠ [] ∨ ps ≠ []) :
    ps.foldl (fun acc q => sInsert (f q) acc) acc ≠ [] := by
  induction ps generalizing acc with
  | nil => simpa using h.resolve_right (by simp)
  | cons p rest ih => exact ih (Or.inl (sInsert_ne_nil _ _))

theorem sendersList_ne_nil {shards : List String} (h : shards ≠ []) :
    sendersList shards ≠ [] := by
  apply foldl_sInsert_ne_nil
  right
  intro hnil
  have : shards.enum.length = 0 := by simp [hnil]
  rw [List.enum_length] at this
  exact h (List.length_eq_zero.mp this)

theorem mem_sendersList {shards : List String} {i : Nat} {s : String}
    (h : (i, s) ∈ shards.enum) : derivedAddr i s ∈ sendersList shards := by
  exact mem_foldl_sInsert_of_mem (f := fun q => derivedAddr q.1 q.2) h

theorem btInsert_subset {q : Nat × String} {k : Nat} {v : String} {l : List (Nat × String)}
    (h : q ∈ btInsert k v l) : q = (k, v) ∨ q ∈ l := by
  induction l with
  | nil => simpa [btInsert] using h
  | cons p rest ih =>
    simp only [btInsert] at h
    split at h
    · rcases List.mem_cons.mp h with h | h
      · exact Or.inl h
      · exact Or.inr h
    · split at h
      · rcases List.mem_cons.mp h with h | h
        · exact Or.inl h
        · exact Or.inr (List.mem_cons_of_mem _ h)
      · rcases List.mem_cons.mp h with h | h
        · exact Or.inr (h ▸ List.mem_cons_self _ _)
        · rcases ih h with h | h
          · exact Or.inl h
          · exact Or.inr (List.mem_cons_of_mem _ h)

theorem foldl_btInsert_subset {q : Nat × String} {acc : List (Nat × String)}
    {entries : List (Nat × String)}
    (h : q ∈ entries.foldl (fun acc p => btInsert p.1 p.2 acc) acc) :
    q ∈ acc ∨ q ∈ entries := by
  induction entries generalizing acc with
  | nil => exact Or.inl (by simpa using h)
  | cons p rest ih =>
    rcases ih h with h | h
    · rcases btInsert_subset h with h | h
      · exact Or.inr (List.mem_cons.mpr (Or.inl (by simpa using h.symm ▸ rfl)))
      · exact Or.inl h
    · exact Or.inr (List.mem_cons_of_mem _ h)

theorem buildNodes_value_mem_senders {shards : List String} {k : Nat} {v : String}
    (h : (k, v) ∈ buildNodes shards) : v ∈ sendersList shards := by
  rcases foldl_btInsert_subset h with h | h
  · cases h
  · rcases List.mem_flatMap.mp h with ⟨p, hp, hin⟩
    rcases List.mem_map.mp hin with ⟨n, _, hn⟩
    have hv : v = derivedAddr p.1 p.2 := congrArg Prod.snd hn.symm
    exact hv ▸ mem_sendersList (i := p.1) (s := p.2) (by simpa using hp)

/-! ### Routing as a function of the key -/

theorem lookupGE_mem {h : Nat} {l : List (Nat × String)} {p : Nat × String}
    (hl : lookupGE h l = some p) : p ∈ l := by
  induction l with
  | nil => cases hl
  | cons q rest ih =>
    rw [show lookupGE h (q :: rest) = if h ≤ q.1 then some q else lookupGE h rest from rfl]
      at hl
    split at hl
    · exact List.mem_cons.mpr (Or.inl (Option.some.inj hl).symm)
    · exact List.mem_cons_of_mem _ (ih hl)

theorem get_shard_mem_senders {shards : List String} {key : B} {v : String}
    (h : get_shard (buildNodes shards) key = some v) : v ∈ sendersList shards := by
  rcases Option.map_eq_some'.mp h with ⟨p, hp, hv⟩
  exact hv ▸ buildNodes_value_mem_senders (k := p.1) (by simpa using lookupGE_mem hp)

/-- The shard an explicit routing key selects: the `get_shard` hit, or the
first sender in address order on a miss. -/
def shardFor (shards : List String) (key : B) : String :=
  match get_shard (buildNodes shards) key with
  | some node => node
  | none => (sendersList shards).headD ""

theorem sendTo_build {shards : List String} (h : shards ≠ []) (req : Req) (key : B) :
    sendTo (buildNodes shards) (sendersList shards) req key =
      Step.send (shardFor shards key) req := by
  unfold sendTo shardFor
  cases hg : get_shard (buildNodes shards) key with
  | none =>
      cases hs : sendersList shards with
      | nil => exact absurd hs (sendersList_ne_nil h)
      | cons a rest => simp [hs]
  | some node => simp [get_shard_mem_senders hg]

/-! ### Claims C1, C3, C4, C9, C10 -/

/-- Claim C1, counterexample: the cluster event handler does split a
multi-key mutation — `DEL k l` is forwarded as two single-key requests, not
as one canonical request. -/
theorem claim_C1_counterexample :
    clusterHandleAOF (.DEL [[107], [108]]) = [⟨"DEL", [[107]]⟩, ⟨"DEL", [[108]]⟩] ∧
      (clusterHandleAOF (.DEL [[107], [108]])).length ≠ 1 := by
  decide

/-- Claim C1, amended: in cluster mode the handler expands every multi-key
mutation record (`DEL`, `UNLINK`, `MSET`, `MSETNX`, `PFCOUNT`) into one
single-key request per key (per pair for `MSET` / `MSETNX`), enqueued to the
single cluster worker channel, exactly like the request stream of the
sharded expansion. -/
theorem claim_C1_cluster_expands (keys : List B) (kvs : List KVPair) :
    clusterHandleAOF (.DEL keys) = keys.map (fun k => (⟨"DEL", [k]⟩ : Req)) ∧
    clusterHandleAOF (.UNLINK keys) = keys.map (fun k => (⟨"UNLINK", [k]⟩ : Req)) ∧
    clusterHandleAOF (.MSET kvs) = kvs.map (fun kv => (⟨"SET", [kv.key, kv.value]⟩ : Req)) ∧
    clusterHandleAOF (.MSETNX kvs) =
      kvs.map (fun kv => (⟨"SETNX", [kv.key, kv.value]⟩ : Req)) ∧
    clusterHandleAOF (.PFCOUNT keys) = keys.map (fun k => (⟨"PFCOUNT", [k]⟩ : Req)) :=
  ⟨rfl, rfl, rfl, rfl, rfl⟩

/-- Claim C3: in sharded mode every multi-key mutation is expanded into
single-key requests, each routed by its own key: `DEL` and `UNLINK` become
one request per key, `MSET` one `SET k v` and `MSETNX` one `SETNX k v` per
pair (routed by the pair's key), and `PFCOUNT` one `PFCOUNT k` per key. -/
theorem claim_C3_sharded_expansion (shards : List String) (h : shards ≠ [])
    (keys : List B) (kvs : List KVPair) :
    shardedHandleAOF (buildNodes shards) (sendersList shards) (.DEL keys) =
      keys.map (fun k => Step.send (shardFor shards k) ⟨"DEL", [k]⟩) ∧
    shardedHandleAOF (buildNodes shards) (sendersList shards) (.UNLINK keys) =
      keys.map (fun k => Step.send (shardFor shards k) ⟨"UNLINK", [k]⟩) ∧
    shardedHandleAOF (buildNodes shards) (sendersList shards) (.MSET kvs) =
      kvs.map (fun kv => Step.send (shardFor shards kv.key) ⟨"SET", [kv.key, kv.value]⟩) ∧
    shardedHandleAOF (buildNodes shards) (sendersList shards) (.MSETNX kvs) =
      kvs.map (fun kv => Step.send (shardFor shards kv.key) ⟨"SETNX", [kv.key, kv.value]⟩) ∧
    shardedHandleAOF (buildNodes shards) (sendersList shards) (.PFCOUNT keys) =
      keys.map (fun k => Step.send (shardFor shards k) ⟨"PFCOUNT", [k]⟩) := by
  refine ⟨?_, ?_, ?_, ?_, ?_⟩ <;>
    simp [shardedHandleAOF, execStep, sendTo_build h]

/-- Claim C3, witness at a one-shard configuration with one key and one
pair. -/
theorem claim_C3_sharded_expansion_witness :
    shardedHandleAOF (buildNodes ["127.0.0.1:16480"]) (sendersList ["127.0.0.1:16480"])
        (.DEL [[97]]) =
      [Step.send (shardFor ["127.0.0.1:16480"] [97]) ⟨"DEL", [[97]]⟩] ∧
    shardedHandleAOF (buildNodes ["127.0.0.1:16480"]) (sendersList ["127.0.0.1:16480"])
        (.UNLINK [[97]]) =
      [Step.send (shardFor ["127.0.0.1:16480"] [97]) ⟨"UNLINK", [[97]]⟩] ∧
    shardedHandleAOF (buildNodes ["127.0.0.1:16480"]) (sendersList ["127.0.0.1:16480"])
        (.MSET [⟨[97], [98]⟩]) =
      [Step.send (shardFor ["127.0.0.1:16480"] [97]) ⟨"SET", [[97], [98]]⟩] ∧
    shardedHandleAOF (buildNodes ["127.0.0.1:16480"]) (sendersList ["127.0.0.1:16480"])
        (.MSETNX [⟨[97], [98]⟩]) =
      [Step.send (shardFor ["127.0.0.1:16480"] [97]) ⟨"SETNX", [[97], [98]]⟩] ∧
    shardedHandleAOF (buildNodes ["127.0.0.1:16480"]) (sendersList ["127.0.0.1:16480"])
        (.PFCOUNT [[97]]) =
      [Step.send (shardFor ["127.0.0.1:16480"] [97]) ⟨"PFCOUNT", [[97]]⟩] :=
  claim_C3_sharded_expansion ["127.0.0.1:16480"] (by simp) [[97]] [⟨[97], [98]⟩]

/-- Claim C4: in both routed modes, the twelve cross-key commands produce no
canonical request at all — the sharded handler emits no step and the cluster
handler enqueues nothing. -/
theorem claim_C4_routed_drops (nodes : List (Nat × String)) (senders : List String) :
    (∀ op dk ks, shardedHandleAOF nodes senders (.BITOP op dk ks) = [] ∧
      clusterHandleAOF (.BITOP op dk ks) = []) ∧
    (∀ s nk ks args, shardedHandleAOF nodes senders (.EVAL s nk ks args) = [] ∧
      clusterHandleAOF (.EVAL s nk ks args) = []) ∧
    (∀ s nk ks args, shardedHandleAOF nodes senders (.EVALSHA s nk ks args) = [] ∧
      clusterHandleAOF (.EVALSHA s nk ks args) = []) ∧
    (shardedHandleAOF nodes senders .MULTI = [] ∧ clusterHandleAOF .MULTI = []) ∧
    (shardedHandleAOF nodes senders .EXEC = [] ∧ clusterHandleAOF .EXEC = []) ∧
    (∀ d ks, shardedHandleAOF nodes senders (.PFMERGE d ks) = [] ∧
      clusterHandleAOF (.PFMERGE d ks) = []) ∧
    (∀ d ks, shardedHandleAOF nodes senders (.SDIFFSTORE d ks) = [] ∧
      clusterHandleAOF (.SDIFFSTORE d ks) = []) ∧
    (∀ d ks, shardedHandleAOF nodes senders (.SINTERSTORE d ks) = [] ∧
      clusterHandleAOF (.SINTERSTORE d ks) = []) ∧
    (∀ d ks, shardedHandleAOF nodes senders (.SUNIONSTORE d ks) = [] ∧
      clusterHandleAOF (.SUNIONSTORE d ks) = []) ∧
    (∀ d nk ks w a, shardedHandleAOF nodes senders (.ZUNIONSTORE d nk ks w a) = [] ∧
      clusterHandleAOF (.ZUNIONSTORE d nk ks w a) = []) ∧
    (∀ d nk ks w a, shardedHandleAOF nodes senders (.ZINTERSTORE d nk ks w a) = [] ∧
      clusterHandleAOF (.ZINTERSTORE d nk ks w a) = []) ∧
    (∀ c m, shardedHandleAOF nodes senders (.PUBLISH c m) = [] ∧
      clusterHandleAOF (.PUBLISH c m) = []) := by
  refine ⟨?_, ?_, ?_, ⟨rfl, rfl⟩, ⟨rfl, rfl⟩, ?_, ?_, ?_, ?_, ?_, ?_, ?_⟩ <;>
    intros <;> exact ⟨rfl, rfl⟩

/-- Claim C9: the canonical requests the converter emits for `PEXPIRE` and
`PEXPIREAT` omit the key — the argument list is exactly the milliseconds
(respectively the millisecond timestamp) and does not contain the key. -/
theorem claim_C9_pexpire_omits_key (key milliseconds mill_timestamp : B) :
    aofReq (.PEXPIRE key milliseconds) = ⟨"PEXPIRE", [milliseconds]⟩ ∧
    aofReq (.PEXPIREAT key mill_timestamp) = ⟨"PEXPIREAT", [mill_timestamp]⟩ ∧
    (key ≠ milliseconds → key ∉ (aofReq (.PEXPIRE key milliseconds)).args) ∧
    (key ≠ mill_timestamp → key ∉ (aofReq (.PEXPIREAT key mill_timestamp)).args) := by
  refine ⟨rfl, rfl, fun h => ?_, fun h => ?_⟩ <;> simpa [aofReq] using h

/-- Claim C9, witness: the key `"k"` and value `"5"` of a concrete
`PEXPIRE` / `PEXPIREAT` record. -/
theorem claim_C9_pexpire_omits_key_witness :
    aofReq (.PEXPIRE [107] [53]) = ⟨"PEXPIRE", [[53]]⟩ ∧
      [107] ∉ (aofReq (.PEXPIRE [107] [53])).args ∧
      [107] ∉ (aofReq (.PEXPIREAT [107] [53])).args :=
  ⟨(claim_C9_pexpire_omits_key [107] [53] [53]).1,
    (claim_C9_pexpire_omits_key [107] [53] [53]).2.2.1 (by decide),
    (claim_C9_pexpire_omits_key [107] [53] [53]).2.2.2 (by decide)⟩

/-- Claim C10: in sharded mode, a request with no argument after the verb
and no explicit routing key makes `execute` hit the
`panic!("cmd args is empty")` arm: the handler's only step is that abort,
for any routing table and sender map. -/
theorem claim_C10_empty_args_panics (nodes : List (Nat × String)) (senders : List String)
    (name : String) :
    shardedHandleAOF nodes senders (.Other name []) = [Step.abort "cmd args is empty"] := by
  simp [shardedHandleAOF, converterHandleAof, aofReq, execStep]

/-! ### Claim C7: batch_size ≤ 0 means unbounded -/

/-- Claim C7: a batch size configured as `0` or negative is normalised to
`-1` by argument parsing, under which the worker attempts a receive on every
loop iteration whatever the current count, a received command always grows
the batch, and the flush condition is exactly "interval elapsed or shutdown,
with a non-empty batch". -/
theorem claim_C7_unbounded_batch (raw : Int) (hraw : raw ≤ 0) :
    parsedBatchSize raw = -1 ∧
    (∀ count, wouldReceive (parsedBatchSize raw) count = true) ∧
    (∀ s m elapsed interval connOk,
      (loopIter (parsedBatchSize raw) interval s m elapsed connOk).2.1 = true) ∧
    (∀ s r, (recvEffect s (.cmd r)).count = s.count + 1 ∧
      (recvEffect s (.cmd r)).pipeline = s.pipeline ++ [r]) ∧
    (∀ elapsed interval shutdown count,
      flushDue elapsed interval shutdown count = true ↔
        ((interval ≤ elapsed ∨ shutdown = true) ∧ 0 < count)) := by
  have hbs : parsedBatchSize raw = -1 := by
    simp only [parsedBatchSize, if_neg (by omega : ¬raw > 0)]
  refine ⟨hbs, fun count => ?_, fun s m elapsed interval connOk => ?_, fun s r => ⟨rfl, rfl⟩,
    fun elapsed interval shutdown count => ?_⟩
  · simp [wouldReceive, hbs]
  · have hwr : wouldReceive (parsedBatchSize raw) s.count = true := by simp [wouldReceive, hbs]
    simp only [loopIter, hwr, if_true]
    cases connOk <;> split <;> rfl
  · simp [flushDue]

/-- Claim C7, witness: a configured batch size of `0`. -/
theorem claim_C7_unbounded_batch_witness :
    parsedBatchSize 0 = -1 ∧ wouldReceive (parsedBatchSize 0) 1000000 = true :=
  ⟨(claim_C7_unbounded_batch 0 (by decide)).1,
    (claim_C7_unbounded_batch 0 (by decide)).2.1 1000000⟩

/-! ### Decimal round-trip lemmas for the checkpoint -/

theorem decRevAux_zero (fuel : Nat) : decRevAux fuel 0 = [] := by
  cases fuel <;> simp [decRevAux]

theorem decRevAux_congr :
    ∀ f₁ f₂ n, n ≤ f₁ → n ≤ f₂ → decRevAux f₁ n = decRevAux f₂ n := by
  intro f₁
  induction f₁ with
  | zero =>
      intro f₂ n h₁ _
      interval_cases n
      simp [decRevAux_zero]
  | succ k ih =>
      intro f₂ n h₁ h₂
      rcases Nat.eq_zero_or_pos n with hn | hn
      · subst hn; simp [decRevAux_zero]
      · obtain ⟨m, rfl⟩ : ∃ m, f₂ = m + 1 := ⟨f₂ - 1, by omega⟩
        have hdiv : n / 10 < n := Nat.div_lt_self hn (by norm_num)
        simp only [decRevAux, if_neg (by omega : ¬n = 0)]
        exact congrArg _ (ih m (n / 10) (by omega) (by omega))

theorem digitChar_toNat {d : Nat} (h : d < 10) : (digitChar d).toNat = 48 + d := by
  interval_cases d <;> rfl

theorem parseDigitsAux_append_digit (xs : List Char) (acc d : Nat) (h : d < 10) :
    parseDigitsAux (xs ++ [digitChar d]) acc =
      (parseDigitsAux xs acc).map (fun v => v * 10 + d) := by
  induction xs generalizing acc with
  | nil =>
      simp only [List.nil_append, parseDigitsAux, digitChar_toNat h]
      rw [if_pos (by omega)]
      simp only [parseDigitsAux, Option.map_some']
      congr 2
      omega
  | cons c cs ih =>
      simp only [List.cons_append, parseDigitsAux]
      split
      · exact ih _
      · rfl

theorem parseDigitsAux_decRev (n : Nat) :
    ∀ fuel acc, n ≤ fuel →
      parseDigitsAux ((decRevAux fuel n).reverse) acc =
        some (acc * 10 ^ (decRevAux fuel n).length + n) := by
  induction n using Nat.strong_induction_on with
  | _ n ih =>
      intro fuel acc hfuel
      rcases Nat.eq_zero_or_pos n with hn | hn
      · subst hn
        simp [decRevAux_zero, parseDigitsAux]
      · obtain ⟨f, rfl⟩ : ∃ f, fuel = f + 1 := ⟨fuel - 1, by omega⟩
        have hdiv : n / 10 < n := Nat.div_lt_self hn (by norm_num)
        simp only [decRevAux, if_neg (by omega : ¬n = 0), List.reverse_cons, List.length_cons]
        rw [parseDigitsAux_append_digit _ _ _ (Nat.mod_lt n (by norm_num)),
          ih (n / 10) hdiv f acc (by omega)]
        simp only [Option.map_some']
        congr 1
        have hmod : n / 10 * 10 + n % 10 = n := by omega
        calc (acc * 10 ^ (decRevAux f (n / 10)).length + n / 10) * 10 + n % 10
            = acc * 10 ^ ((decRevAux f (n / 10)).length + 1) + (n / 10 * 10 + n % 10) := by
              ring
          _ = acc * 10 ^ ((decRevAux f (n / 10)).length + 1) + n := by rw [hmod]

theorem decRevAux_mem_digit :
    ∀ fuel n c, c ∈ decRevAux fuel n → ∃ d, d < 10 ∧ c = digitChar d := by
  intro fuel
  induction fuel with
  | zero => intro n c h; cases h
  | succ f ih =>
      intro n c h
      simp only [decRevAux] at h
      split at h
      · cases h
      · rcases List.mem_cons.mp h with h | h
        · exact ⟨n % 10, Nat.mod_lt _ (by norm_num), h⟩
        · exact ih _ _ h

theorem natChars_mem_digit {n : Nat} {c : Char} (h : c ∈ natChars n) :
    ∃ d, d < 10 ∧ c = digitChar d := by
  unfold natChars at h
  split at h
  · refine ⟨0, by norm_num, ?_⟩
    simpa using h
  · rw [List.mem_reverse] at h
    exact decRevAux_mem_digit _ _ _ h

theorem natChars_ne_nil (n : Nat) : natChars n ≠ [] := by
  unfold natChars
  split
  · simp
  · rename_i hn
    obtain ⟨f, rfl⟩ : ∃ f, n = f + 1 := ⟨n - 1, by omega⟩
    simp [decRevAux]

theorem parseDigits_natChars (n : Nat) : parseDigits (natChars n) = some n := by
  rcases Nat.eq_zero_or_pos n with hn | hn
  · subst hn; decide
  · have hne : natChars n ≠ [] := natChars_ne_nil n
    cases hc : natChars n with
    | nil => exact absurd hc hne
    | cons c cs =>
        have : parseDigits (c :: cs) = parseDigitsAux (c :: cs) 0 := rfl
        rw [this, ← hc]
        unfold natChars
        rw [if_neg (by omega)]
        rw [parseDigitsAux_decRev n n 0 le_rfl]
        simp

theorem natChars_head_not_sign {n : Nat} {c : Char} {cs : List Char}
    (h : natChars n = c :: cs) : c ≠ '+' ∧ c ≠ '-' := by
  have hc : c ∈ natChars n := h ▸ List.mem_cons_self _ _
  rcases natChars_mem_digit hc with ⟨d, hd, rfl⟩
  have h43 : ('+' : Char).toNat = 43 := rfl
  have h45 : ('-' : Char).toNat = 45 := rfl
  constructor <;> intro heq <;> have ht := congrArg Char.toNat heq <;>
    rw [digitChar_toNat hd] at ht <;> omega

theorem parseI64_intChars {i : Int} (hlo : -(2 ^ 63) ≤ i) (hhi : i < 2 ^ 63) :
    parseI64 (intChars i) = some i := by
  by_cases hneg : i < 0
  · have hic : intChars i = '-' :: natChars i.natAbs := by simp [intChars, hneg]
    rw [hic]
    have hstep : parseI64 ('-' :: natChars i.natAbs) =
        (parseDigits (natChars i.natAbs)).bind fun n =>
          if n ≤ 2 ^ 63 then some (-(n : Int)) else none := by
      simp [parseI64]
    rw [hstep, parseDigits_natChars]
    have hb : i.natAbs ≤ 2 ^ 63 := by omega
    simp only [Option.some_bind, if_pos hb, Option.some.injEq]
    omega
  · have hic : intChars i = natChars i.natAbs := by simp [intChars, hneg]
    rw [hic]
    cases hc : natChars i.natAbs with
    | nil => exact absurd hc (natChars_ne_nil _)
    | cons c cs =>
        rcases natChars_head_not_sign hc with ⟨h1, h2⟩
        simp only [parseI64]
        rw [if_neg h1, if_neg h2, ← hc, parseDigits_natChars]
        have hb : i.natAbs ≤ 2 ^ 63 - 1 := by omega
        simp only [Option.some_bind, if_pos hb, Option.some.injEq]
        omega

/-! ### Split-on-comma lemmas -/

theorem splitComma_no_comma {s : List Char} (h : ',' ∉ s) : splitComma s = [s] := by
  induction s with
  | nil => rfl
  | cons c cs ih =>
      have hc : ¬c = ',' := fun e => h (e ▸ List.mem_cons_self _ _)
      have hcs : ',' ∉ cs := fun m => h (List.mem_cons_of_mem _ m)
      simp only [splitComma, if_neg hc, ih hcs]

theorem splitComma_append {id rest : List Char} (h : ',' ∉ id) :
    splitComma (id ++ ',' :: rest) = id :: splitComma rest := by
  induction id with
  | nil => simp [splitComma]
  | cons c cs ih =>
      have hc : ¬c = ',' := fun e => h (e ▸ List.mem_cons_self _ _)
      have hcs : ',' ∉ cs := fun m => h (List.mem_cons_of_mem _ m)
      simp only [List.cons_append, splitComma, if_neg hc, List.append_eq, ih hcs]

theorem intChars_no_comma (i : Int) : ',' ∉ intChars i := by
  intro h
  have h44 : (',' : Char).toNat = 44 := rfl
  unfold intChars at h
  have digitAbsurd : ∀ m : Nat, ',' ∈ natChars m → False := by
    intro m hm
    rcases natChars_mem_digit hm with ⟨d, hd, he⟩
    have := congrArg Char.toNat he
    rw [digitChar_toNat hd, h44] at this
    omega
  split at h
  · rcases List.mem_cons.mp h with h | h
    · exact absurd h (by decide)
    · exact digitAbsurd _ h
  · exact digitAbsurd _ h

/-! ### Claim C8: checkpoint round-trip -/

/-- Claim C8, counterexample: a replication id containing a comma does not
round-trip — saving id `"a,b"` with offset `1` and loading it back yields
the malformed-file error, not `("a,b", 1)`. -/
theorem claim_C8_counterexample :
    loadMeta (fun _ => 0) (saveMeta (fun _ => 0) (fun _ => none) "s" ['a', ',', 'b'] 1) "s" =
      none := by
  decide

/-- Claim C8, amended: for every replication id that does not contain `','`
and every offset representable in `i64`, saving the checkpoint for a source
address and loading it for the same address returns exactly the saved pair
(for any path-hash function and prior store contents). -/
theorem claim_C8_checkpoint_roundtrip (hash : String → Nat)
    (store : Nat → Option (List Char)) (addr : String) (id : List Char) (offset : Int)
    (hid : ',' ∉ id) (hlo : -(2 ^ 63) ≤ offset) (hhi : offset < 2 ^ 63) :
    loadMeta hash (saveMeta hash store addr id offset) addr = some (id, offset) := by
  unfold loadMeta saveMeta
  rw [if_pos rfl]
  show loadContent (saveContent id offset) = some (id, offset)
  unfold loadContent saveContent
  rw [splitComma_append hid, splitComma_no_comma (intChars_no_comma offset)]
  show (match parseI64 (intChars offset) with
    | some o => some (id, o)
    | none => none) = some (id, offset)
  rw [parseI64_intChars hlo hhi]

/-- Claim C8, witness: id `"AB"` and offset `-42` round-trip through a fresh
store. -/
theorem claim_C8_checkpoint_roundtrip_witness :
    loadMeta (fun _ => 0) (saveMeta (fun _ => 0) (fun _ => none) "127.0.0.1:6379"
      ['A', 'B'] (-42)) "127.0.0.1:6379" = some (['A', 'B'], -42) :=
  claim_C8_checkpoint_roundtrip (fun _ => 0) (fun _ => none) "127.0.0.1:6379"
    ['A', 'B'] (-42) (by decide) (by decide) (by decide)

/-! ### Sortedness of the two startup maps -/

/-- Key order of routing-table entries. -/
def keyLt (p q : Nat × String) : Prop := p.1 < q.1

/-- Address order of the sender map. -/
def addrLt (a b : String) : Prop := strLt a b = true

theorem btInsert_mem_self (k : Nat) (v : String) (l : List (Nat × String)) :
    (k, v) ∈ btInsert k v l := by
  induction l with
  | nil => simp [btInsert]
  | cons p rest ih =>
      simp only [btInsert]
      split
      · exact List.mem_cons_self _ _
      · split
        · exact List.mem_cons_self _ _
        · exact List.mem_cons_of_mem _ ih

theorem btInsert_mem_preserve {q : Nat × String} {l : List (Nat × String)} {k : Nat}
    (v : String) (hq : q ∈ l) (hk : q.1 ≠ k) : q ∈ btInsert k v l := by
  induction l with
  | nil => cases hq
  | cons p rest ih =>
      simp only [btInsert]
      split
      · exact List.mem_cons_of_mem _ hq
      · split
        · rename_i hlt heq
          rcases List.mem_cons.mp hq with rfl | hq
          · exact absurd heq.symm hk
          · exact List.mem_cons_of_mem _ hq
        · rcases List.mem_cons.mp hq with rfl | hq
          · exact List.mem_cons_self _ _
          · exact List.mem_cons_of_mem _ (ih hq)

theorem btInsert_length_fresh {k : Nat} {l : List (Nat × String)} (v : String)
    (h : k ∉ l.map Prod.fst) : (btInsert k v l).length = l.length + 1 := by
  induction l with
  | nil => rfl
  | cons p rest ih =>
      obtain ⟨pk, pv⟩ := p
      have hk : ¬k = pk := by
        intro e
        exact h (List.mem_map.mpr ⟨(pk, pv), List.mem_cons_self _ _, e.symm⟩)
      have hrest : k ∉ rest.map Prod.fst := by
        intro m
        rcases List.mem_map.mp m with ⟨q, hq, he⟩
        exact h (List.mem_map.mpr ⟨q, List.mem_cons_of_mem _ hq, he⟩)
      by_cases hlt : k < pk
      · simp [btInsert, if_pos hlt]
      · simp only [btInsert, if_neg hlt, if_neg hk, List.length_cons, ih hrest]

theorem btInsert_pairwise {l : List (Nat × String)} (k : Nat) (v : String)
    (h : l.Pairwise keyLt) : (btInsert k v l).Pairwise keyLt := by
  induction l with
  | nil => simp [btInsert, List.pairwise_cons]
  | cons p rest ih =>
      rcases List.pairwise_cons.mp h with ⟨hp, hrest⟩
      simp only [btInsert]
      split
      · rename_i hlt
        refine List.pairwise_cons.mpr ⟨?_, List.pairwise_cons.mpr ⟨hp, hrest⟩⟩
        intro q hq
        rcases List.mem_cons.mp hq with rfl | hq
        · exact hlt
        · exact lt_trans hlt (hp q hq)
      · split
        · rename_i hnlt heq
          refine List.pairwise_cons.mpr ⟨?_, hrest⟩
          intro q hq
          exact heq ▸ hp q hq
        · rename_i hnlt hne
          refine List.pairwise_cons.mpr ⟨?_, ih hrest⟩
          intro q hq
          rcases btInsert_subset hq with rfl | hq
          · exact lt_of_le_of_ne (by omega) (fun e => hne e.symm)
          · exact hp q hq

theorem buildNodes_pairwise (shards : List String) :
    (buildNodes shards).Pairwise keyLt := by
  unfold buildNodes
  generalize allEntries shards = entries
  have : ∀ (es : List (Nat × String)) (acc : List (Nat × String)), acc.Pairwise keyLt →
      (es.foldl (fun acc p => btInsert p.1 p.2 acc) acc).Pairwise keyLt := by
    intro es
    induction es with
    | nil => intro acc h; simpa using h
    | cons p rest ih => intro acc h; exact ih _ (btInsert_pairwise _ _ h)
  exact this entries [] (by simp)

theorem bytesLt_trans : ∀ {x y z : B}, bytesLt x y = true → bytesLt y z = true →
    bytesLt x z = true := by
  intro x
  induction x with
  | nil =>
      intro y z hxy hyz
      cases z with
      | nil =>
          cases y with
          | nil => exact hxy
          | cons b bs => simp [bytesLt] at hyz
      | cons c cs => rfl
  | cons a as ih =>
      intro y z hxy hyz
      cases y with
      | nil => simp [bytesLt] at hxy
      | cons b bs =>
          cases z with
          | nil => simp [bytesLt] at hyz
          | cons c cs =>
              simp only [bytesLt] at hxy hyz ⊢
              by_cases hab : a < b
              · by_cases hbc : b < c
                · rw [if_pos (lt_trans hab hbc)]
                · rw [if_neg hbc] at hyz
                  by_cases hcb : c < b
                  · simp [hcb] at hyz
                  · have : b = c := by omega
                    rw [if_pos (this ▸ hab)]
              · rw [if_neg hab] at hxy
                by_cases hba : b < a
                · simp [hba] at hxy
                · rw [if_neg hba] at hxy
                  have hab' : a = b := by omega
                  subst hab'
                  by_cases hac : a < c
                  · rw [if_pos hac]
                  · rw [if_neg hac] at hyz ⊢
                    by_cases hca : c < a
                    · simp [hca] at hyz
                    · rw [if_neg hca] at hyz ⊢
                      exact ih hxy hyz

theorem strLt_trans {a b c : String} (hab : strLt a b = true) (hbc : strLt b c = true) :
    strLt a c = true :=
  bytesLt_trans hab hbc

theorem sInsert_pairwise {l : List String} (a : String) (h : l.Pairwise addrLt) :
    (sInsert a l).Pairwise addrLt := by
  induction l with
  | nil => simp [sInsert, List.pairwise_cons]
  | cons b rest ih =>
      rcases List.pairwise_cons.mp h with ⟨hb, hrest⟩
      simp only [sInsert]
      split
      · rename_i hab
        refine List.pairwise_cons.mpr ⟨?_, List.pairwise_cons.mpr ⟨hb, hrest⟩⟩
        intro x hx
        rcases List.mem_cons.mp hx with rfl | hx
        · exact hab
        · exact strLt_trans hab (hb x hx)
      · split
        · rename_i hnab hba
          refine List.pairwise_cons.mpr ⟨?_, ih hrest⟩
          intro x hx
          rcases mem_sInsert_elim hx with rfl | hx
          · exact hba
          · exact hb x hx
        · rename_i hnab hnba
          have : a = b := strLt_asymm_eq (Bool.of_not_eq_true hnab) (Bool.of_not_eq_true hnba)
          subst this
          exact List.pairwise_cons.mpr ⟨hb, hrest⟩

theorem sendersList_pairwise (shards : List String) :
    (sendersList shards).Pairwise addrLt := by
  unfold sendersList
  generalize shards.enum = ps
  have : ∀ (qs : List (Nat × String)) (acc : List String), acc.Pairwise addrLt →
      (qs.foldl (fun acc q => sInsert (derivedAddr q.1 q.2) acc) acc).Pairwise addrLt := by
    intro qs
    induction qs with
    | nil => intro acc h; simpa using h
    | cons q rest ih => intro acc h; exact ih _ (sInsert_pairwise _ h)
  exact this ps [] (by simp)

/-! ### `lookupGE` specification on a sorted table -/

theorem lookupGE_some_spec {h : Nat} {l : List (Nat × String)} (hs : l.Pairwise keyLt)
    {k : Nat} {v : String} (hl : lookupGE h l = some (k, v)) :
    h ≤ k ∧ (k, v) ∈ l ∧ ∀ p ∈ l, h ≤ p.1 → k ≤ p.1 := by
  induction l with
  | nil => cases hl
  | cons q rest ih =>
      rcases List.pairwise_cons.mp hs with ⟨hq, hrest⟩
      rw [show lookupGE h (q :: rest) = if h ≤ q.1 then some q else lookupGE h rest from rfl]
        at hl
      split at hl
      · rename_i hh
        cases Option.some.inj hl
        refine ⟨hh, List.mem_cons_self _ _, ?_⟩
        intro p hp _
        rcases List.mem_cons.mp hp with rfl | hp
        · exact le_rfl
        · exact (hq p hp).le
      · rename_i hh
        rcases ih hrest hl with ⟨h1, h2, h3⟩
        refine ⟨h1, List.mem_cons_of_mem _ h2, ?_⟩
        intro p hp hhp
        rcases List.mem_cons.mp hp with rfl | hp
        · exact absurd hhp hh
        · exact h3 p hp hhp

theorem lookupGE_none_spec {h : Nat} {l : List (Nat × String)} (hl : lookupGE h l = none) :
    ∀ p ∈ l, p.1 < h := by
  induction l with
  | nil => intro p hp; cases hp
  | cons q rest ih =>
      rw [show lookupGE h (q :: rest) = if h ≤ q.1 then some q else lookupGE h rest from rfl]
        at hl
      split at hl
      · cases hl
      · rename_i hh
        intro p hp
        rcases List.mem_cons.mp hp with rfl | hp
        · omega
        · exact ih hl p hp

/-! ### Claim C2: the routing lookup -/

/-- The two-target configuration of the repository's own sharding test. -/
def shardsC2 : List String := ["127.0.0.1:16480", "127.0.0.1:16481"]

set_option maxRecDepth 100000 in
/-- Claim C2, counterexample: for the two-shard test configuration and key
`"abm"`, no table hash is ≥ the key hash; the minimum-hash entry of the table
belongs to shard `1`, yet the dispatcher sends the request to shard `0` (the
first sender in address order), so the lookup does not wrap to the
minimum-hash entry. -/
theorem claim_C2_counterexample :
    get_shard (buildNodes shardsC2) (asciiBytes "abm") = none ∧
    (buildNodes shardsC2).head? = some (88884237437254987, "1-127.0.0.1:16481") ∧
    (buildNodes shardsC2).all (fun p => decide (88884237437254987 ≤ p.1)) = true ∧
    sendTo (buildNodes shardsC2) (sendersList shardsC2)
        ⟨"PFCOUNT", [asciiBytes "abm"]⟩ (asciiBytes "abm") =
      Step.send "0-127.0.0.1:16480" ⟨"PFCOUNT", [asciiBytes "abm"]⟩ ∧
    ("0-127.0.0.1:16480" : String) ≠ "1-127.0.0.1:16481" := by
  decide

/-- Claim C2, amended: the lookup returns the routing-table entry with the
smallest 64-bit hash ≥ `murmur_hash_64a(K, SEED)`; when no such entry
exists, the request goes to the first sender in address order (the minimum
address of the senders map), not to the minimum-hash entry of the table. -/
theorem claim_C2_lookup (shards : List String) (key : B) (req : Req) :
    (∀ k v, lookupGE (murmur_hash64a key SEED) (buildNodes shards) = some (k, v) →
      get_shard (buildNodes shards) key = some v ∧
      murmur_hash64a key SEED ≤ k ∧ (k, v) ∈ buildNodes shards ∧
      ∀ p ∈ buildNodes shards, murmur_hash64a key SEED ≤ p.1 → k ≤ p.1) ∧
    (lookupGE (murmur_hash64a key SEED) (buildNodes shards) = none →
      ∀ a rest, sendersList shards = a :: rest →
        sendTo (buildNodes shards) (sendersList shards) req key = Step.send a req ∧
        ∀ b ∈ sendersList shards, a = b ∨ strLt a b = true) := by
  constructor
  · intro k v hl
    rcases lookupGE_some_spec (buildNodes_pairwise shards) hl with ⟨h1, h2, h3⟩
    exact ⟨by rw [get_shard, hl]; rfl, h1, h2, h3⟩
  · intro hnone a rest hsend
    constructor
    · unfold sendTo
      rw [show get_shard (buildNodes shards) key = none from by rw [get_shard, hnone]; rfl,
        hsend]
      rfl
    · intro b hb
      have hp := sendersList_pairwise shards
      rw [hsend] at hp hb
      rcases List.pairwise_cons.mp hp with ⟨ha, _⟩
      rcases List.mem_cons.mp hb with rfl | hb
      · exact Or.inl rfl
      · exact Or.inr (ha b hb)

set_option maxRecDepth 100000 in
/-- Claim C2, witness: key `"a"` hits the table entry of shard `1`; key
`"abm"` misses the whole table and is sent to the first sender. -/
theorem claim_C2_lookup_witness :
    get_shard (buildNodes shardsC2) (asciiBytes "a") = some "1-127.0.0.1:16481" ∧
    murmur_hash64a (asciiBytes "a") SEED ≤ 7993907927001534599 ∧
    sendTo (buildNodes shardsC2) (sendersList shardsC2)
        ⟨"PFCOUNT", [asciiBytes "abm"]⟩ (asciiBytes "abm") =
      Step.send "0-127.0.0.1:16480" ⟨"PFCOUNT", [asciiBytes "abm"]⟩ :=
  ⟨((claim_C2_lookup shardsC2 (asciiBytes "a") ⟨"PFCOUNT", [asciiBytes "a"]⟩).1
      7993907927001534599 "1-127.0.0.1:16481" (by decide)).1,
    ((claim_C2_lookup shardsC2 (asciiBytes "a") ⟨"PFCOUNT", [asciiBytes "a"]⟩).1
      7993907927001534599 "1-127.0.0.1:16481" (by decide)).2.1,
    (((claim_C2_lookup shardsC2 (asciiBytes "abm") ⟨"PFCOUNT", [asciiBytes "abm"]⟩).2
      (by decide)) "0-127.0.0.1:16480" ["1-127.0.0.1:16481"] (by decide)).1⟩

/-! ### Claim C6: the routing table built at startup -/

theorem foldl_btInsert_preserve {q : Nat × String} :
    ∀ (entries acc : List (Nat × String)), q ∈ acc → (∀ p ∈ entries, p.1 ≠ q.1) →
      q ∈ entries.foldl (fun acc p => btInsert p.1 p.2 acc) acc := by
  intro entries
  induction entries with
  | nil => intro acc hq _; simpa using hq
  | cons p rest ih =>
      intro acc hq hne
      exact ih _
        (btInsert_mem_preserve _ hq fun e => hne p (List.mem_cons_self _ _) e.symm)
        (fun r hr => hne r (List.mem_cons_of_mem _ hr))

theorem foldl_btInsert_mem_of :
    ∀ (entries acc : List (Nat × String)), (entries.map Prod.fst).Nodup →
      ∀ q ∈ entries, q ∈ entries.foldl (fun acc p => btInsert p.1 p.2 acc) acc := by
  intro entries
  induction entries with
  | nil => intro acc _ q hq; cases hq
  | cons p rest ih =>
      intro acc hnd q hq
      simp only [List.map_cons, List.nodup_cons] at hnd
      rcases hnd with ⟨hp, hrest⟩
      rcases List.mem_cons.mp hq with rfl | hq
      · refine foldl_btInsert_preserve rest _ ?_ ?_
        · obtain ⟨pk, pv⟩ := q
          exact btInsert_mem_self pk pv acc
        · intro r hr e
          exact hp (e ▸ List.mem_map.mpr ⟨r, hr, rfl⟩)
      · exact ih _ hrest q hq

theorem foldl_btInsert_length :
    ∀ (entries acc : List (Nat × String)), (entries.map Prod.fst).Nodup →
      (∀ p ∈ entries, p.1 ∉ acc.map Prod.fst) →
      (entries.foldl (fun acc p => btInsert p.1 p.2 acc) acc).length =
        acc.length + entries.length := by
  intro entries
  induction entries with
  | nil => intro acc _ _; simp
  | cons p rest ih =>
      intro acc hnd hdisj
      simp only [List.map_cons, List.nodup_cons] at hnd
      rcases hnd with ⟨hp, hrest⟩
      have hfresh : p.1 ∉ acc.map Prod.fst := hdisj p (List.mem_cons_self _ _)
      have hdisj' : ∀ r ∈ rest, r.1 ∉ (btInsert p.1 p.2 acc).map Prod.fst := by
        intro r hr m
        rcases List.mem_map.mp m with ⟨q, hq, he⟩
        rcases btInsert_subset hq with rfl | hq
        · exact hp (he ▸ List.mem_map.mpr ⟨r, hr, rfl⟩)
        · exact hdisj r (List.mem_cons_of_mem _ hr) (List.mem_map.mpr ⟨q, hq, he⟩)
      calc (((p :: rest).foldl (fun acc p => btInsert p.1 p.2 acc) acc)).length
          = (btInsert p.1 p.2 acc).length + rest.length := ih _ hrest hdisj'
        _ = acc.length + (p :: rest).length := by
            rw [btInsert_length_fresh p.2 hfresh]
            simp
            omega

theorem allEntries_length (shards : List String) :
    (allEntries shards).length = 160 * shards.length := by
  unfold allEntries
  rw [List.length_flatMap]
  have hmap : shards.enum.map (List.length ∘ fun p => shardEntries p.1 p.2) =
      shards.enum.map (fun _ => 160) := by
    apply List.map_congr_left
    intro p _
    simp [shardEntries]
  have hsum : ∀ (l : List (Nat × String)), (l.map (fun _ => (160 : Nat))).sum = l.length * 160 := by
    intro l
    induction l with
    | nil => simp
    | cons x xs ih => simp [ih, Nat.succ_mul]; omega
  rw [hmap, hsum, List.enum_length, Nat.mul_comm]

/-- Claim C6: the routing table holds exactly `160 × |shards|` entries; for
every shard index `i` and every `n < 160` the entry with hash
`murmur_hash_64a("SHARD-i-NODE-n", 0x1234ABCD)` maps to shard `i`'s derived
address; every entry is of that shape; and every shard's address appears.
The hypothesis is that the `160 × |shards|` virtual-node hashes are pairwise
distinct, which holds for the concrete configurations checked and for any
realistic shard count. -/
theorem claim_C6_routing_table (shards : List String)
    (hnodup : ((allEntries shards).map Prod.fst).Nodup) :
    (buildNodes shards).length = 160 * shards.length ∧
    (∀ i s, (i, s) ∈ shards.enum → ∀ n, n < 160 →
      (vnodeHash i n, derivedAddr i s) ∈ buildNodes shards) ∧
    (∀ p ∈ buildNodes shards, ∃ i s n, (i, s) ∈ shards.enum ∧ n < 160 ∧
      p = (vnodeHash i n, derivedAddr i s)) ∧
    (∀ i s, (i, s) ∈ shards.enum → ∃ k, (k, derivedAddr i s) ∈ buildNodes shards) := by
  have hmem : ∀ i s, (i, s) ∈ shards.enum → ∀ n, n < 160 →
      (vnodeHash i n, derivedAddr i s) ∈ buildNodes shards := by
    intro i s his n hn
    apply foldl_btInsert_mem_of _ _ hnodup
    unfold allEntries
    refine List.mem_flatMap.mpr ⟨(i, s), his, ?_⟩
    unfold shardEntries
    exact List.mem_map.mpr ⟨n, List.mem_range.mpr hn, rfl⟩
  refine ⟨?_, hmem, ?_, ?_⟩
  · unfold buildNodes
    rw [foldl_btInsert_length _ _ hnodup (by simp)]
    simpa using allEntries_length shards
  · intro p hp
    rcases foldl_btInsert_subset hp with h | h
    · cases h
    · rcases List.mem_flatMap.mp h with ⟨q, hq, hin⟩
      rcases List.mem_map.mp hin with ⟨n, hn, he⟩
      exact ⟨q.1, q.2, n, by simpa using hq, List.mem_range.mp hn, he.symm⟩
  · intro i s his
    exact ⟨vnodeHash i 0, hmem i s his 0 (by norm_num)⟩

set_option maxRecDepth 100000 in
/-- Claim C6, witness: the single-shard configuration, whose 160 virtual
node hashes are pairwise distinct by computation. -/
theorem claim_C6_routing_table_witness :
    (buildNodes ["127.0.0.1:16480"]).length = 160 * 1 ∧
    (vnodeHash 0 0, derivedAddr 0 "127.0.0.1:16480") ∈ buildNodes ["127.0.0.1:16480"] :=
  ⟨(claim_C6_routing_table ["127.0.0.1:16480"] (by decide)).1,
    (claim_C6_routing_table ["127.0.0.1:16480"] (by decide)).2.1 0 "127.0.0.1:16480"
      (by decide) 0 (by decide)⟩

/-! ### Claim C5: only administrative requests are broadcast -/

/-- A step list never delivers one request to two different channels. -/
def singleTarget (steps : List Step) : Prop :=
  ∀ a₁ a₂ r, Step.send a₁ r ∈ steps → Step.send a₂ r ∈ steps → a₁ = a₂

theorem singleTarget_nil : singleTarget [] := by
  intro a₁ a₂ r h₁ _
  cases h₁

theorem singleTarget_singleton (s : Step) : singleTarget [s] := by
  intro a₁ a₂ r h₁ h₂
  have e₁ := List.mem_singleton.mp h₁
  have e₂ := List.mem_singleton.mp h₂
  rw [← e₂] at e₁
  exact (Step.send.injEq ..).mp e₁ |>.1

/-- The channel `execute` selects for a routing key, as an optional address:
the `get_shard` hit when it is a live sender, else the first sender. -/
def chanFor (nodes : List (Nat × String)) (senders : List String) (key : B) : Option String :=
  match get_shard nodes key with
  | none => senders.head?
  | some node => if node ∈ senders then some node else none

theorem sendTo_eq_chanFor (nodes : List (Nat × String)) (senders : List String) (req : Req)
    (key : B) :
    sendTo nodes senders req key =
      match chanFor nodes senders key with
      | some a => Step.send a req
      | none => Step.abort "called `Option::unwrap()` on a `None` value" := by
  unfold sendTo chanFor
  cases get_shard nodes key with
  | none => cases senders.head? <;> rfl
  | some node => by_cases hm : node ∈ senders <;> simp [hm]

theorem sendTo_send_inv {nodes : List (Nat × String)} {senders : List String} {req : Req}
    {key : B} {a : String} {r : Req} (h : sendTo nodes senders req key = Step.send a r) :
    r = req ∧ chanFor nodes senders key = some a := by
  rw [sendTo_eq_chanFor] at h
  cases hc : chanFor nodes senders key with
  | none => rw [hc] at h; cases h
  | some s0 =>
      rw [hc] at h
      injection h with h1 h2
      exact ⟨h2.symm, by rw [h1]⟩

theorem sendTo_send_req {nodes : List (Nat × String)} {senders : List String} {req : Req}
    {key : B} {a : String} {r : Req} (h : sendTo nodes senders req key = Step.send a r) :
    r = req :=
  (sendTo_send_inv h).1

theorem sendTo_send_addr {nodes : List (Nat × String)} {senders : List String}
    {req req' : Req} {key : B} {a a' : String} {r r' : Req}
    (h : sendTo nodes senders req key = Step.send a r)
    (h' : sendTo nodes senders req' key = Step.send a' r') : a = a' := by
  have h1 := (sendTo_send_inv h).2
  have h2 := (sendTo_send_inv h').2
  rw [h1] at h2
  exact Option.some.inj h2

theorem singleTarget_mapped {α : Type} (xs : List α) (reqOf : α → Req) (keyOf : α → B)
    (nodes : List (Nat × String)) (senders : List String)
    (hinj : ∀ x y, x ∈ xs → y ∈ xs → reqOf x = reqOf y → keyOf x = keyOf y) :
    singleTarget (xs.map fun x => execStep nodes senders (reqOf x) (some (keyOf x))) := by
  intro a₁ a₂ r h₁ h₂
  rcases List.mem_map.mp h₁ with ⟨x, hx, hxe⟩
  rcases List.mem_map.mp h₂ with ⟨y, hy, hye⟩
  have hxs : sendTo nodes senders (reqOf x) (keyOf x) = Step.send a₁ r := hxe
  have hys : sendTo nodes senders (reqOf y) (keyOf y) = Step.send a₂ r := hye
  have hreq : reqOf x = reqOf y := (sendTo_send_req hxs).symm.trans (sendTo_send_req hys)
  have hkey : keyOf x = keyOf y := hinj x y hx hy hreq
  rw [hkey] at hxs
  exact sendTo_send_addr hxs hys

/-- The `(request, routing key)` pairs of the `XGROUP` sub-clauses; in each
pair the routing key is the second request argument. -/
def xgroupParts (x : XGroupRecord) : List (Req × B) :=
  (x.create.elim []
    (fun c => [(⟨"XGROUP", [lit "CREATE", c.key, c.group_name, c.id]⟩, c.key)])) ++
  (x.set_id.elim []
    (fun s => [(⟨"XGROUP", [lit "SETID", s.key, s.group_name, s.id]⟩, s.key)])) ++
  (x.destroy.elim []
    (fun d => [(⟨"XGROUP", [lit "DESTROY", d.key, d.group_name]⟩, d.key)])) ++
  (x.del_consumer.elim []
    (fun d => [(⟨"XGROUP", [lit "DELCONSUMER", d.key, d.group_name, d.consumer_name]⟩,
      d.key)]))

theorem shardedHandleAOF_xgroup (nodes : List (Nat × String)) (senders : List String)
    (x : XGroupRecord) :
    shardedHandleAOF nodes senders (.XGROUP x) =
      (xgroupParts x).map fun pr => execStep nodes senders pr.1 (some pr.2) := by
  rcases x with ⟨c, s, d, dc⟩
  cases c <;> cases s <;> cases d <;> cases dc <;> rfl

theorem xgroupParts_key (x : XGroupRecord) :
    ∀ pr ∈ xgroupParts x, pr.1.args.get? 1 = some pr.2 := by
  rcases x with ⟨c, s, d, dc⟩
  intro pr hpr
  rcases List.mem_append.mp hpr with hpr | hdc
  · rcases List.mem_append.mp hpr with hpr | hd
    · rcases List.mem_append.mp hpr with hc | hs
      · cases c with
        | none => cases hc
        | some cv => cases List.mem_singleton.mp hc; rfl
      · cases s with
        | none => cases hs
        | some sv => cases List.mem_singleton.mp hs; rfl
    · cases d with
      | none => cases hd
      | some dv => cases List.mem_singleton.mp hd; rfl
  · cases dc with
    | none => cases hdc
    | some dcv => cases List.mem_singleton.mp hdc; rfl

theorem shardedHandleAOF_singleTarget (nodes : List (Nat × String)) (senders : List String)
    (c : Command) (hno : isAdminBroadcast c = false) :
    singleTarget (shardedHandleAOF nodes senders c) := by
  cases c
  case SELECT db => simp [isAdminBroadcast] at hno
  case SCRIPTFLUSH => simp [isAdminBroadcast] at hno
  case SCRIPTLOAD script => simp [isAdminBroadcast] at hno
  case SWAPDB index1 index2 => simp [isAdminBroadcast] at hno
  case FLUSHDB async => simp [isAdminBroadcast] at hno
  case FLUSHALL async => simp [isAdminBroadcast] at hno
  case DEL keys =>
    exact singleTarget_mapped keys (fun k => ⟨"DEL", [k]⟩) (fun k => k) nodes senders
      (fun x y _ _ h => by simpa using h)
  case UNLINK keys =>
    exact singleTarget_mapped keys (fun k => ⟨"UNLINK", [k]⟩) (fun k => k) nodes senders
      (fun x y _ _ h => by simpa using h)
  case PFCOUNT keys =>
    exact singleTarget_mapped keys (fun k => ⟨"PFCOUNT", [k]⟩) (fun k => k) nodes senders
      (fun x y _ _ h => by simpa using h)
  case MSET kvs =>
    exact singleTarget_mapped kvs (fun kv => ⟨"SET", [kv.key, kv.value]⟩)
      (fun kv => kv.key) nodes senders
      (fun x y _ _ h => by
        simp only [Req.mk.injEq, List.cons.injEq, and_true, true_and] at h
        exact h.1)
  case MSETNX kvs =>
    exact singleTarget_mapped kvs (fun kv => ⟨"SETNX", [kv.key, kv.value]⟩)
      (fun kv => kv.key) nodes senders
      (fun x y _ _ h => by
        simp only [Req.mk.injEq, List.cons.injEq, and_true, true_and] at h
        exact h.1)
  case XGROUP x =>
    rw [shardedHandleAOF_xgroup]
    exact singleTarget_mapped (xgroupParts x) Prod.fst Prod.snd nodes senders
      (fun p q hp hq h => by
        have hp1 := xgroupParts_key x p hp
        have hq1 := xgroupParts_key x q hq
        rw [h] at hp1
        exact Option.some.inj (hp1.symm.trans hq1))
  all_goals first
    | exact singleTarget_nil
    | exact singleTarget_singleton _

/-- Claim C5: each administrative request — `SELECT db`, `SCRIPT FLUSH`,
`SCRIPT LOAD`, `SWAPDB`, `FLUSHDB [ASYNC]`, `FLUSHALL [ASYNC]` — is enqueued
identically to every shard's channel, and no other command is broadcast:
with at least two shards, no request produced for a non-administrative
command reaches every sender. -/
theorem claim_C5_admin_broadcast (shards : List String) (db : Int)
    (script index1 index2 : B) (c : Command) (hc : isAdminBroadcast c = false)
    (hlen : 2 ≤ (sendersList shards).length) :
    (shardedHandleAOF (buildNodes shards) (sendersList shards) (.SELECT db) =
      (sendersList shards).map fun a => Step.send a ⟨"SELECT", [intBytes db]⟩) ∧
    (shardedHandleAOF (buildNodes shards) (sendersList shards) .SCRIPTFLUSH =
      (sendersList shards).map fun a => Step.send a ⟨"SCRIPT", [lit "FLUSH"]⟩) ∧
    (shardedHandleAOF (buildNodes shards) (sendersList shards) (.SCRIPTLOAD script) =
      (sendersList shards).map fun a => Step.send a ⟨"SCRIPT", [lit "LOAD", script]⟩) ∧
    (shardedHandleAOF (buildNodes shards) (sendersList shards) (.SWAPDB index1 index2) =
      (sendersList shards).map fun a => Step.send a ⟨"SWAPDB", [index1, index2]⟩) ∧
    (shardedHandleAOF (buildNodes shards) (sendersList shards) (.FLUSHDB none) =
      (sendersList shards).map fun a => Step.send a ⟨"FLUSHDB", []⟩) ∧
    (shardedHandleAOF (buildNodes shards) (sendersList shards) (.FLUSHDB (some ())) =
      (sendersList shards).map fun a => Step.send a ⟨"FLUSHDB", [lit "ASYNC"]⟩) ∧
    (shardedHandleAOF (buildNodes shards) (sendersList shards) (.FLUSHALL none) =
      (sendersList shards).map fun a => Step.send a ⟨"FLUSHALL", []⟩) ∧
    (shardedHandleAOF (buildNodes shards) (sendersList shards) (.FLUSHALL (some ())) =
      (sendersList shards).map fun a => Step.send a ⟨"FLUSHALL", [lit "ASYNC"]⟩) ∧
    (∀ i s, (i, s) ∈ shards.enum → derivedAddr i s ∈ sendersList shards) ∧
    (∀ req, ¬ ∀ a ∈ sendersList shards,
      Step.send a req ∈ shardedHandleAOF (buildNodes shards) (sendersList shards) c) := by
  refine ⟨rfl, rfl, rfl, rfl, rfl, rfl, rfl, rfl, fun i s h => mem_sendersList h, ?_⟩
  intro req hall
  obtain ⟨a0, a1, rest, hsl⟩ : ∃ a0 a1 rest, sendersList shards = a0 :: a1 :: rest := by
    cases hs : sendersList shards with
    | nil => rw [hs] at hlen; simp at hlen
    | cons a0 tl =>
        cases tl with
        | nil => rw [hs] at hlen; simp at hlen
        | cons a1 rest => exact ⟨a0, a1, rest, rfl⟩
  have hne : a0 ≠ a1 := by
    have hp := sendersList_pairwise shards
    rw [hsl] at hp
    rcases List.pairwise_cons.mp hp with ⟨h0, _⟩
    intro e
    have hlt := h0 a1 (List.mem_cons_self _ _)
    rw [← e] at hlt
    exact absurd hlt (by simp [addrLt, strLt, bytesLt_irrefl])
  have h0 := hall a0 (by rw [hsl]; exact List.mem_cons_self _ _)
  have h1 := hall a1 (by rw [hsl]; exact List.mem_cons_of_mem _ (List.mem_cons_self _ _))
  exact hne (shardedHandleAOF_singleTarget _ _ c hc a0 a1 req h0 h1)

/-- Claim C5, witness: the two-shard test configuration; `SELECT 7` is
broadcast to both senders, while the dropped cross-key `PFMERGE` record
delivers nothing to every sender. -/
theorem claim_C5_admin_broadcast_witness :
    (shardedHandleAOF (buildNodes shardsC2) (sendersList shardsC2) (.SELECT 7) =
      (sendersList shardsC2).map fun a => Step.send a ⟨"SELECT", [intBytes 7]⟩) ∧
    ¬ ∀ a ∈ sendersList shardsC2,
      Step.send a ⟨"DEL", [[107]]⟩ ∈
        shardedHandleAOF (buildNodes shardsC2) (sendersList shardsC2)
          (.PFMERGE [97] [[98]]) := by
  have h := claim_C5_admin_broadcast shardsC2 7 [] [] [] (.PFMERGE [97] [[98]])
    rfl (by decide)
  exact ⟨h.1, h.2.2.2.2.2.2.2.2.2 ⟨"DEL", [[107]]⟩⟩

end CopyRedis
